import Mathlib

/-!
Shallow embedding of the versebase storage engine (src/app/db) and proofs of
the specification's claims about it.

Conventions of the embedding:

* bytes are `Nat` values (each written byte is < 256); files are `List Nat`;
* Python exceptions become `Except DbError`;
* Python `int` is Lean `Int`; fixed-width packing is modelled with explicit
  `% 2^w` two's-complement arithmetic;
* a Python `datetime` value that the codec can represent (whole seconds) is
  modelled by its integer Unix timestamp;
* an `OrderedDict` keyed by strings is an association list in insertion
  order; the `SortedDict` of `TableIndex` is an association list kept sorted
  by key with unique keys.
-/

set_option maxRecDepth 4000

namespace Versebase

/-- Exception kinds raised by the Python code paths that are modelled here. -/
inductive DbError where
  /-- a `ValueError` (missing row, bad seek, bad erase range) -/
  | valueError
  /-- a `struct.error` from `struct.pack`/`struct.unpack` -/
  | structError
  /-- a `UnicodeDecodeError`/`UnicodeEncodeError` from str codecs -/
  | unicodeError
  /-- a `KeyError` from a dict lookup -/
  | keyError
  /-- a failed `assert` statement -/
  | assertionFailed
  /-- `FilePointerCorruptError` from `TableFile.read_row` -/
  | filePointerCorrupt
  /-- an `OverflowError` from `int.to_bytes` -/
  | overflowError
  /-- id key of unexpected type used where the model needs an `Int` -/
  | typeError
  /-- loop fuel exhausted (never happens on the inputs the theorems use) -/
  | fuelExhausted
  deriving DecidableEq

/-- Decidable equality of `Except` results, for concrete witnesses. -/
instance {ε α : Type} [DecidableEq ε] [DecidableEq α] : DecidableEq (Except ε α)
  | .ok a, .ok b =>
    if h : a = b then .isTrue (by rw [h]) else .isFalse (by intro hab; cases hab; exact h rfl)
  | .ok _, .error _ => .isFalse (by intro hab; cases hab)
  | .error _, .ok _ => .isFalse (by intro hab; cases hab)
  | .error a, .error b =>
    if h : a = b then .isTrue (by rw [h]) else .isFalse (by intro hab; cases hab; exact h rfl)

/-- Did an `Except` computation succeed? -/
def isOkE {ε α : Type} : Except ε α → Bool
  | .ok _ => true
  | .error _ => false

/-! ## Byte-order helpers (the `struct` / `int.to_bytes` layer) -/

/-- Big-endian bytes of `n`, `w` bytes wide (`struct.pack` with `>`): most
significant byte first. -/
def beBytes : Nat → Nat → List Nat
  | 0, _ => []
  | w + 1, n => beBytes w (n / 256) ++ [n % 256]

/-- Value of a big-endian byte string (`struct.unpack` with `>`). -/
def beVal (bs : List Nat) : Nat := bs.foldl (fun a b => a * 256 + b) 0

/-- Little-endian bytes of `n`, `w` bytes wide (`int.to_bytes(w, "little")`):
least significant byte first. -/
def leBytes : Nat → Nat → List Nat
  | 0, _ => []
  | w + 1, n => n % 256 :: leBytes w (n / 256)

/-- Value of a little-endian byte string (`int.from_bytes(_, "little")`). -/
def leVal (bs : List Nat) : Nat := bs.foldr (fun b a => b + 256 * a) 0

/-- Signed value of a little-endian byte string
(`int.from_bytes(_, "little", signed=True)`). -/
def leSignedVal (bs : List Nat) : Int :=
  let n := leVal bs
  if 2 * n < 2 ^ (8 * bs.length) then (n : Int) else (n : Int) - 2 ^ (8 * bs.length)

/-! ## DataType codec (`src/app/db/datatypes.py`)

Only the four variants admitted by `deserialize_dtype` (`Int`, `Str`, `Bool`,
`DateTime`) can occur in a persisted schema, so only those are embedded. -/

/-- Tag of a schema field's datatype (the `Type[DType]` of a `Field`). -/
inductive DTy where
  | int
  | str
  | bool
  | datetime
  deriving DecidableEq

/-- A typed value (`DataType` instance).  A `Str` value is its sequence of
Unicode code points; a `DateTime` value is its whole-second Unix timestamp
(the only instants the codec round-trips; `datetime`'s calendar bounds are
not modelled, so the decoder accepts every i64 timestamp). -/
inductive Value where
  | vint (i : Int)
  | vstr (cps : List Nat)
  | vbool (b : Bool)
  | vdatetime (ts : Int)
  deriving DecidableEq

/-- Variant tag of a value. -/
def Value.tag : Value → DTy
  | .vint _ => .int
  | .vstr _ => .str
  | .vbool _ => .bool
  | .vdatetime _ => .datetime

/-- `Int.to_bytes`: `struct.pack(">i", value)` — 4-byte big-endian two's
complement; `struct.error` when out of the i32 range. -/
def intToBytes (i : Int) : Except DbError (List Nat) :=
  if -(2 ^ 31) ≤ i ∧ i < 2 ^ 31 then .ok (beBytes 4 (i % 2 ^ 32).toNat)
  else .error .structError

/-- `Int.from_bytes`: `struct.unpack(">i", raw)` — requires exactly 4 bytes. -/
def intFromBytes (raw : List Nat) : Except DbError Value :=
  if raw.length = 4 then
    let n : Nat := beVal raw
    .ok (.vint (if (n : Int) < 2 ^ 31 then (n : Int) else (n : Int) - 2 ^ 32))
  else .error .structError

/-- `DateTime.to_bytes`: `struct.pack(">q", int(value.timestamp()))`. -/
def dtToBytes (ts : Int) : Except DbError (List Nat) :=
  if -(2 ^ 63) ≤ ts ∧ ts < 2 ^ 63 then .ok (beBytes 8 (ts % 2 ^ 64).toNat)
  else .error .structError

/-- `DateTime.from_bytes`: `struct.unpack(">q", raw)`, then
`datetime.fromtimestamp`. -/
def dtFromBytes (raw : List Nat) : Except DbError Value :=
  if raw.length = 8 then
    let n : Nat := beVal raw
    .ok (.vdatetime (if (n : Int) < 2 ^ 63 then (n : Int) else (n : Int) - 2 ^ 64))
  else .error .structError

/-- `Bool.to_bytes`: `struct.pack("?", value)` — one byte, `0x00`/`0x01`. -/
def boolToBytes (b : Bool) : List Nat := [if b then 1 else 0]

/-- `Bool.from_bytes`: `struct.unpack("?", raw)` — requires exactly one byte;
any nonzero byte is `True`. -/
def boolFromBytes (raw : List Nat) : Except DbError Value :=
  match raw with
  | [b] => .ok (.vbool (b != 0))
  | _ => .error .structError

/-! ### UTF-8 (`str.encode("utf-8")` / `bytes.decode("utf-8")`) -/

/-- Code points a Python `str` can hold and `encode("utf-8")` accepts:
below `0x110000` and not a surrogate. -/
def validCp (c : Nat) : Bool :=
  c < 0x110000 && !(0xD800 ≤ c && c < 0xE000)

/-- Standard UTF-8 encoding of one code point (1 to 4 bytes). -/
def utf8EncodeChar (c : Nat) : List Nat :=
  if c < 0x80 then [c]
  else if c < 0x800 then [0xC0 + c / 64, 0x80 + c % 64]
  else if c < 0x10000 then [0xE0 + c / 4096, 0x80 + c / 64 % 64, 0x80 + c % 64]
  else [0xF0 + c / 262144, 0x80 + c / 4096 % 64, 0x80 + c / 64 % 64, 0x80 + c % 64]

/-- Is `b` a UTF-8 continuation byte? -/
def utf8Cont (b : Nat) : Bool := 0x80 ≤ b && b < 0xC0

/-- Decode the continuation byte of a 2-byte UTF-8 form led by `b`. -/
def utf8Dec2 (b : Nat) : List Nat → Option (Nat × List Nat)
  | b1 :: rest1 =>
    if utf8Cont b1 then some ((b - 0xC0) * 64 + (b1 - 0x80), rest1) else none
  | _ => none

/-- Decode the continuation bytes of a 3-byte UTF-8 form led by `b`
(leads `0xE0`/`0xED` restrict the first continuation byte to exclude
overlong forms and surrogates). -/
def utf8Dec3 (b : Nat) : List Nat → Option (Nat × List Nat)
  | b1 :: b2 :: rest2 =>
    if (if b = 0xE0 then 0xA0 ≤ b1 && b1 < 0xC0
        else if b = 0xED then 0x80 ≤ b1 && b1 < 0xA0
        else utf8Cont b1) && utf8Cont b2 then
      some ((b - 0xE0) * 4096 + (b1 - 0x80) * 64 + (b2 - 0x80), rest2)
    else none
  | _ => none

/-- Decode the continuation bytes of a 4-byte UTF-8 form led by `b`
(leads `0xF0`/`0xF4` restrict the first continuation byte to exclude
overlong forms and anything above `0x10FFFF`). -/
def utf8Dec4 (b : Nat) : List Nat → Option (Nat × List Nat)
  | b1 :: b2 :: b3 :: rest3 =>
    if (if b = 0xF0 then 0x90 ≤ b1 && b1 < 0xC0
        else if b = 0xF4 then 0x80 ≤ b1 && b1 < 0x90
        else utf8Cont b1) && utf8Cont b2 && utf8Cont b3 then
      some ((b - 0xF0) * 262144 + (b1 - 0x80) * 4096 + (b2 - 0x80) * 64 + (b3 - 0x80),
        rest3)
    else none
  | _ => none

/-- Strict decoding of one UTF-8 character: the code point and the remaining
bytes, or `none` at end of input or on an invalid form. -/
def utf8DecodeChar : List Nat → Option (Nat × List Nat)
  | [] => none
  | b :: rest =>
    if b < 0x80 then some (b, rest)
    else if b < 0xC2 then none
    else if b < 0xE0 then utf8Dec2 b rest
    else if b < 0xF0 then utf8Dec3 b rest
    else if b < 0xF5 then utf8Dec4 b rest
    else none

theorem utf8Dec2_shrinks {b : Nat} {l : List Nat} {c : Nat} {r : List Nat}
    (h : utf8Dec2 b l = some (c, r)) : r.length < l.length := by
  match l with
  | [] => simp [utf8Dec2] at h
  | b1 :: rest1 =>
    rw [utf8Dec2] at h
    split_ifs at h
    all_goals simp only [Option.some.injEq, Prod.mk.injEq] at h
    obtain ⟨h1, h2⟩ := h
    subst h2
    simp only [List.length_cons]
    omega

theorem utf8Dec3_shrinks {b : Nat} {l : List Nat} {c : Nat} {r : List Nat}
    (h : utf8Dec3 b l = some (c, r)) : r.length < l.length := by
  match l with
  | [] => simp [utf8Dec3] at h
  | [b1] => simp [utf8Dec3] at h
  | b1 :: b2 :: rest2 =>
    rw [utf8Dec3] at h
    split_ifs at h
    all_goals simp only [Option.some.injEq, Prod.mk.injEq] at h
    all_goals obtain ⟨h1, h2⟩ := h
    all_goals subst h2
    all_goals simp only [List.length_cons]
    all_goals omega

theorem utf8Dec4_shrinks {b : Nat} {l : List Nat} {c : Nat} {r : List Nat}
    (h : utf8Dec4 b l = some (c, r)) : r.length < l.length := by
  match l with
  | [] => simp [utf8Dec4] at h
  | [b1] => simp [utf8Dec4] at h
  | [b1, b2] => simp [utf8Dec4] at h
  | b1 :: b2 :: b3 :: rest3 =>
    rw [utf8Dec4] at h
    split_ifs at h
    all_goals simp only [Option.some.injEq, Prod.mk.injEq] at h
    all_goals obtain ⟨h1, h2⟩ := h
    all_goals subst h2
    all_goals simp only [List.length_cons]
    all_goals omega

theorem utf8DecodeChar_shrinks {bs : List Nat} {c : Nat} {r : List Nat}
    (h : utf8DecodeChar bs = some (c, r)) : r.length < bs.length := by
  match bs with
  | [] => simp [utf8DecodeChar] at h
  | b :: rest =>
    rw [utf8DecodeChar] at h
    split_ifs at h
    · simp only [Option.some.injEq, Prod.mk.injEq] at h
      obtain ⟨h1, h2⟩ := h
      subst h2
      simp only [List.length_cons]
      omega
    · exact (utf8Dec2_shrinks h).trans (by simp)
    · exact (utf8Dec3_shrinks h).trans (by simp)
    · exact (utf8Dec4_shrinks h).trans (by simp)

/-- Strict UTF-8 decoding (what Python's `bytes.decode("utf-8")` accepts:
no overlong forms, no surrogates, nothing above `0x10FFFF`). -/
def utf8Decode : List Nat → Option (List Nat)
  | [] => some []
  | b :: rest =>
    match h : utf8DecodeChar (b :: rest) with
    | none => none
    | some (c, rest2) => (utf8Decode rest2).map (c :: ·)
  termination_by bs => bs.length
  decreasing_by exact utf8DecodeChar_shrinks h

/-- Unfolding `utf8Decode` by one decoded character. -/
theorem utf8Decode_cons (b : Nat) (rest : List Nat) :
    utf8Decode (b :: rest) =
      match utf8DecodeChar (b :: rest) with
      | none => none
      | some (c, rest2) => (utf8Decode rest2).map (c :: ·) := by
  rw [utf8Decode]
  rcases hx : utf8DecodeChar (b :: rest) with _ | ⟨c, rest2⟩ <;> simp [hx]
/-- `Str.to_bytes`: `value.encode("utf-8")`; raises on surrogates. -/
def strToBytes (cps : List Nat) : Except DbError (List Nat) :=
  if cps.all validCp then .ok (cps.map utf8EncodeChar).flatten
  else .error .unicodeError

/-- `Str.from_bytes`: `raw.decode("utf-8")` (strict). -/
def strFromBytes (raw : List Nat) : Except DbError Value :=
  match utf8Decode raw with
  | some cps => .ok (.vstr cps)
  | none => .error .unicodeError

/-- `DataType.to_bytes` dispatched on the variant. -/
def Value.to_bytes : Value → Except DbError (List Nat)
  | .vint i => intToBytes i
  | .vstr s => strToBytes s
  | .vbool b => .ok (boolToBytes b)
  | .vdatetime t => dtToBytes t

/-- `datatype.from_bytes` dispatched on the schema field's tag. -/
def DTy.from_bytes : DTy → List Nat → Except DbError Value
  | .int, raw => intFromBytes raw
  | .str, raw => strFromBytes raw
  | .bool, raw => boolFromBytes raw
  | .datetime, raw => dtFromBytes raw

/-- Values the codec can represent: i32 range for `Int`, i64 timestamps for
`DateTime`, encodable code points for `Str`, every `Bool`. -/
def representable : Value → Bool
  | .vint i => decide (-(2 ^ 31) ≤ i ∧ i < 2 ^ 31)
  | .vstr s => s.all validCp
  | .vbool _ => true
  | .vdatetime t => decide (-(2 ^ 63) ≤ t ∧ t < 2 ^ 63)

/-! ## Schema and Row (`src/app/db/table.py`) -/

/-- A schema field (`Field`): name and datatype.  `nullable` plays no role in
the storage paths modelled here (the core rejects nulls). -/
structure Field where
  name : String
  datatype : DTy
  nullable : Bool := false
  deriving DecidableEq

/-- A `TableSchema` is its ordered field list (the `OrderedDict` keys equal
the field names on every code path that builds one). -/
abbrev Schema := List Field

/-- The `validate_fields` rule: at least one field, and an `id` field whose
datatype is `Int`. -/
def schemaValid (schema : Schema) : Bool :=
  !schema.isEmpty && schema.any (fun f => f.name = "id" && f.datatype = .int)

/-- A `Row` is its `values` ordered dict: field name to value, in schema
order. -/
abbrev Row := List (String × Value)

/-- `Row.from_bytes`: zip the schema's field names with the raw field byte
strings (Python `zip` truncates at the shorter list) and decode each with the
field's datatype, building the values dict in schema order. -/
def Row.from_bytes : Schema → List (List Nat) → Except DbError Row
  | [], _ => .ok []
  | _, [] => .ok []
  | f :: schema1, raw :: raws1 =>
    (f.datatype.from_bytes raw).bind fun v =>
      (Row.from_bytes schema1 raws1).map fun row => (f.name, v) :: row

/-- `OrderedDict.__setitem__`: overwrite the entry in place when the key is
present (its position is preserved), append it otherwise. -/
def dictSet (row : Row) (k : String) (v : Value) : Row :=
  if row.any (fun kv => kv.1 = k) then
    row.map (fun kv => if kv.1 = k then (kv.1, v) else kv)
  else row ++ [(k, v)]

/-- The `id` value of a row when it is an `Int`, as used by
`row.values["id"].value` at places the schema validator guarantees an `Int`
id (`select`'s sort key); defaults to 0 outside that domain. -/
def rowIdD (row : Row) : Int :=
  match row.lookup "id" with
  | some (.vint i) => i
  | _ => 0

/-- `row.values["id"].value` where the caller needs an `Int` key
(`find`'s comparison, `refresh_indexes`'s index key): `KeyError` when the
row has no `id` entry; the schema validator makes a non-`Int` id
unreachable, modelled as an error. -/
def rowIdInt (row : Row) : Except DbError Int :=
  match row.lookup "id" with
  | some (.vint i) => .ok i
  | some _ => .error .typeError
  | none => .error .keyError

/-! ## TableFile (`src/app/db/table.py`) -/

/-- `DELIMITER_SIZE`. -/
def DELIMITER_SIZE : Nat := 8

/-- `FIELDS_DELIMITER = b"\xff\x00\xff\x00\xff\x00\xff\x00"`. -/
def FIELDS_DELIMITER : List Nat := [0xFF, 0x00, 0xFF, 0x00, 0xFF, 0x00, 0xFF, 0x00]

/-- `ROWS_DELIMITER = b"\x00\x7f\x00\xff\x00\x7f\x00\xff"`. -/
def ROWS_DELIMITER : List Nat := [0x00, 0x7F, 0x00, 0xFF, 0x00, 0x7F, 0x00, 0xFF]

/-- The byte-at-a-time scan loop of `read_row`: consume bytes into `buf`;
whenever the last 8 buffered bytes equal a delimiter, push the preceding
bytes as a field and clear the buffer; stop after a `ROWS_DELIMITER`.
Returns the fields pushed so far, the number of bytes consumed, and whether
the loop stopped at a `ROWS_DELIMITER` (rather than at end of file). -/
def scanRow : List Nat → List Nat → List (List Nat) → List (List Nat) × Nat × Bool
  | [], _, fields => (fields, 0, false)
  | b :: rest, buf, fields =>
    let buf1 := buf ++ [b]
    if 8 ≤ buf1.length then
      let last8 := buf1.drop (buf1.length - 8)
      if last8 = ROWS_DELIMITER then
        (fields ++ [buf1.take (buf1.length - 8)], 1, true)
      else if last8 = FIELDS_DELIMITER then
        let r := scanRow rest [] (fields ++ [buf1.take (buf1.length - 8)])
        (r.1, r.2.1 + 1, r.2.2)
      else
        let r := scanRow rest buf1 fields
        (r.1, r.2.1 + 1, r.2.2)
    else
      let r := scanRow rest buf1 fields
      (r.1, r.2.1 + 1, r.2.2)

/-- The `read_row` pointer validation: the 8 bytes immediately preceding
`pos` must equal `ROWS_DELIMITER` unless the cursor is at the beginning
(a `seek` to a negative target resolves relative to the end of file,
failing when it lands before byte 0). -/
def pointerCheck (file : List Nat) (pos : Nat) : Except DbError Unit :=
  if pos = 0 then .ok ()
  else if 8 ≤ pos then
    if (file.drop (pos - 8)).take 8 = ROWS_DELIMITER then .ok ()
    else .error .filePointerCorrupt
  else if 7 ≤ file.length + pos then
    if (file.drop (file.length + pos - 7)).take 8 = ROWS_DELIMITER then .ok ()
    else .error .filePointerCorrupt
  else .error .valueError

/-- `TableFile.read_row` with the cursor at `pos` (the theorems only invoke
it with `pos ≤ file.length`, the positions a real cursor can hold):
`None` at end of file; otherwise validate the pointer, scan fields, assert
the field count equals the schema arity, and decode the row. -/
def read_row (schema : Schema) (file : List Nat) (pos : Nat) :
    Except DbError (Option (Row × Nat × Nat)) :=
  if pos = file.length then .ok none
  else
    (pointerCheck file pos).bind fun _ =>
      let r := scanRow (file.drop pos) [] []
      if r.1.length = schema.length then
        (Row.from_bytes schema r.1).map (fun row => some (row, pos, pos + r.2.1))
      else .error .assertionFailed

/-- Bytes `write_row` emits for the encoded fields of one record: the fields
separated by `FIELDS_DELIMITER`. -/
def fieldsBytes : List (List Nat) → List Nat
  | [] => []
  | [f] => f
  | f :: fs => f ++ FIELDS_DELIMITER ++ fieldsBytes fs

/-- One complete framed record: the separated fields, then `ROWS_DELIMITER`. -/
def recordBytes (fs : List (List Nat)) : List Nat := fieldsBytes fs ++ ROWS_DELIMITER

/-- Encoding of every value of a row, in stored order (the `to_bytes` calls
`write_row` makes). -/
def encodeRowE : Row → Except DbError (List (List Nat))
  | [] => .ok []
  | kv :: row =>
    (kv.2.to_bytes).bind fun bs => (encodeRowE row).map fun rest => bs :: rest

/-- `TableFile.write_row`: seek to end of file, emit the row's values in
their stored order separated by `FIELDS_DELIMITER`, close with
`ROWS_DELIMITER`; return the new file contents plus the begin/end
positions. -/
def write_row (file : List Nat) (row : Row) : Except DbError (List Nat × Nat × Nat) :=
  (encodeRowE row).map fun fs =>
    (file ++ recordBytes fs, file.length, file.length + (recordBytes fs).length)

/-- `TableFile.erase`: requires `begin < end`; read everything from `end`,
truncate at `begin` (zero-filled when `begin` lies past the current end, as
`file.truncate` extends), and append the saved tail. -/
def erase (file : List Nat) (b e : Nat) : Except DbError (List Nat) :=
  if e ≤ b then .error .valueError
  else .ok ((file.take b ++ List.replicate (b - file.length) 0) ++ file.drop e)

/-! ## TableIndex (`src/app/db/index.py`) -/

/-- `SortedDict.__setitem__` on an association list kept sorted by key with
unique keys: insert, or overwrite in place. -/
def treeInsert : List (Int × Nat) → Int → Nat → List (Int × Nat)
  | [], i, p => [(i, p)]
  | (j, q) :: t, i, p =>
    if i < j then (i, p) :: (j, q) :: t
    else if i = j then (i, p) :: t
    else (j, q) :: treeInsert t i p

/-- `SortedDict.pop(id, None)`: drop the entry with the key, if any. -/
def treeRemove : List (Int × Nat) → Int → List (Int × Nat)
  | [], _ => []
  | (j, q) :: t, i => if i = j then t else (j, q) :: treeRemove t i

/-- One dumped index entry: `id.to_bytes(4, "little", signed=True)` then
`pos.to_bytes(8, "little")`; `int.to_bytes` raises `OverflowError` outside
the target range. -/
def idxEntryBytes (i : Int) (p : Nat) : Except DbError (List Nat) :=
  if -(2 ^ 31) ≤ i ∧ i < 2 ^ 31 then
    if p < 2 ^ 64 then .ok (leBytes 4 (i % 2 ^ 32).toNat ++ leBytes 8 p)
    else .error .overflowError
  else .error .overflowError

/-- `TableIndex.dump`'s serialization of the tree: the 12-byte entries in
key order (ascending, as a `SortedDict` iterates). -/
def dumpBytes : List (Int × Nat) → Except DbError (List Nat)
  | [] => .ok []
  | (i, p) :: t => do
    let e ← idxEntryBytes i p
    let rest ← dumpBytes t
    .ok (e ++ rest)

/-- `TableIndex.load`'s read loop: consume 4 id bytes and 8 offset bytes per
round until the file is exhausted; stop without inserting when no offset
bytes remain (`int.from_bytes` accepts byte strings of any length, so a
torn trailing entry still inserts). -/
def loadLoop : List Nat → List (Int × Nat) → List (Int × Nat)
  | [], tree => tree
  | b0 :: rest, tree =>
    let idb := (b0 :: rest).take 4
    let posb := ((b0 :: rest).drop 4).take 8
    if posb = [] then tree
    else loadLoop ((b0 :: rest).drop 12) (treeInsert tree (leSignedVal idb) (leVal posb))
  termination_by bytes _ => bytes.length
  decreasing_by simp only [List.length_drop, List.length_cons]; omega

/-- A `TableIndex`: the in-memory sorted tree and the on-disk file bytes. -/
structure TableIndex where
  tree : List (Int × Nat)
  fileBytes : List Nat
  deriving DecidableEq

/-- `TableIndex.dump`: rewrite the file as the serialization of the tree. -/
def TableIndex.dump (s : TableIndex) : Except DbError TableIndex :=
  (dumpBytes s.tree).map fun bs => { s with fileBytes := bs }

/-- `TableIndex.load` into an empty tree (as `__init__` does). -/
def TableIndex.load (bytes : List Nat) : List (Int × Nat) := loadLoop bytes []

/-- `TableIndex.get`. -/
def TableIndex.get (s : TableIndex) (i : Int) : Option Nat := s.tree.lookup i

/-- `TableIndex.exists`. -/
def TableIndex.exists_ (s : TableIndex) (i : Int) : Bool := (s.get i).isSome

/-- `TableIndex.get_next_id`: 0 when the tree is empty, else
`max(self.tree.keys()) + 1`. -/
def TableIndex.get_next_id (s : TableIndex) : Int :=
  match (s.tree.map Prod.fst).max? with
  | none => 0
  | some m => m + 1

/-- `TableIndex.set`: insert into the tree, then dump. -/
def TableIndex.set (s : TableIndex) (i : Int) (p : Nat) : Except DbError TableIndex :=
  TableIndex.dump { s with tree := treeInsert s.tree i p }

/-- `TableIndex.delete`: pop from the tree, then dump. -/
def TableIndex.delete (s : TableIndex) (i : Int) : Except DbError TableIndex :=
  TableIndex.dump { s with tree := treeRemove s.tree i }

/-- `TableIndex.clear`: empty the tree, then dump. -/
def TableIndex.clear (s : TableIndex) : Except DbError TableIndex :=
  TableIndex.dump { s with tree := [] }

/-! ## Table (`src/app/db/table.py`) -/

/-- A `Table`: its data file contents and its index.  The schema is passed
to each operation. -/
structure Table where
  file : List Nat
  index : TableIndex
  deriving DecidableEq

/-- `Table.get`: consult the index; absent ids raise `ValueError`; otherwise
seek to the stored offset and `read_row`; a `None` read raises `ValueError`;
the row is returned as is. -/
def Table.get (schema : Schema) (t : Table) (id_ : Int) : Except DbError Row :=
  match t.index.get id_ with
  | none => .error .valueError
  | some pos =>
    match read_row schema t.file pos with
    | .error e => .error e
    | .ok none => .error .valueError
    | .ok (some r) => .ok r.1

/-- The `while not self.file.at_end()` read loop shared by `select` and
`refresh_indexes`, collecting every `(row, begin, end)` from `pos` on.  The
fuel argument only bounds the recursion; `file.length + 1` is always
enough. -/
def readRowsLoop (schema : Schema) (file : List Nat) :
    Nat → Nat → Except DbError (List (Row × Nat × Nat))
  | _, 0 => .error .fuelExhausted
  | pos, fuel + 1 =>
    if pos = file.length then .ok []
    else
      (read_row schema file pos).bind fun r =>
        match r with
        | none => .ok []
        | some (row, b, e) => (readRowsLoop schema file e fuel).map ((row, b, e) :: ·)

/-- The filter acceptance test of `select`: for every `(field, value)` pair,
the row's value at that field must equal the given value; a filter key the
row does not contain raises `KeyError`. -/
def rowMatches : List (String × Value) → Row → Except DbError Bool
  | [], _ => .ok true
  | (k, v) :: rest, row =>
    match row.lookup k with
    | none => .error .keyError
    | some w => if w = v then rowMatches rest row else .ok false

/-- The accumulation of matching rows in `select`'s scan loop. -/
def filterRows (filt : List (String × Value)) :
    List (Row × Nat × Nat) → Except DbError (List Row)
  | [] => .ok []
  | (row, _, _) :: rest =>
    (rowMatches filt row).bind fun b =>
      (filterRows filt rest).map fun tl => if b then row :: tl else tl

/-- `Table.select`: full scan from offset 0, keep the rows accepted by the
filter, and sort the result by `row.values["id"].value` (Python's stable
`list.sort`). -/
def Table.select (schema : Schema) (t : Table) (filt : List (String × Value)) :
    Except DbError (List Row) :=
  (readRowsLoop schema t.file 0 (t.file.length + 1)).bind fun rs =>
    (filterRows filt rs).map fun ms =>
      ms.mergeSort fun a b => decide (rowIdD a ≤ rowIdD b)

/-- `Table.create`: overwrite the row's `id` entry with
`index.get_next_id()`, `write_row`, `index.set(id, begin)`; returns the new
table state, the row object as `create` leaves it, and the assigned id. -/
def Table.create (_schema : Schema) (t : Table) (row : Row) :
    Except DbError (Table × Row × Int) :=
  let nid := t.index.get_next_id
  let row1 := dictSet row "id" (.vint nid)
  (write_row t.file row1).bind fun fbe =>
    (t.index.set nid fbe.2.1).map fun index1 =>
      ({ file := fbe.1, index := index1 }, row1, nid)

/-- The `find` scan loop: first record whose id equals the target. -/
def findLoop (schema : Schema) (file : List Nat) (id_ : Int) :
    Nat → Nat → Except DbError (Option (Row × Nat × Nat))
  | _, 0 => .error .fuelExhausted
  | pos, fuel + 1 =>
    if pos = file.length then .ok none
    else
      (read_row schema file pos).bind fun r =>
        match r with
        | none => .ok none
        | some (row, b, e) =>
          (rowIdInt row).bind fun i =>
            if i = id_ then .ok (some (row, b, e)) else findLoop schema file id_ e fuel

/-- `Table.find`: sequential scan from offset 0. -/
def Table.find (schema : Schema) (t : Table) (id_ : Int) :
    Except DbError (Option (Row × Nat × Nat)) :=
  findLoop schema t.file id_ 0 (t.file.length + 1)

/-- The `index.set(id, begin)` fold of `refresh_indexes` over the scanned
records. -/
def refreshFold (idx : TableIndex) : List (Row × Nat × Nat) → Except DbError TableIndex
  | [] => .ok idx
  | (row, b, _) :: rest =>
    (rowIdInt row).bind fun i =>
      (idx.set i b).bind fun idx1 => refreshFold idx1 rest

/-- `Table.refresh_indexes`: clear the index, scan the whole file, and set
`(id, begin)` for every record. -/
def Table.refresh_indexes (schema : Schema) (file : List Nat) (idx : TableIndex) :
    Except DbError TableIndex :=
  (idx.clear).bind fun idx0 =>
    (readRowsLoop schema file 0 (file.length + 1)).bind fun rs => refreshFold idx0 rs

/-- `Table.delete`: linear `find`; absent ids return 0 and change nothing;
otherwise erase the record's byte span and rebuild the index. -/
def Table.delete (schema : Schema) (t : Table) (id_ : Int) :
    Except DbError (Table × Nat) :=
  (Table.find schema t id_).bind fun r =>
    match r with
    | none => .ok (t, 0)
    | some (_, b, e) =>
      (erase t.file b e).bind fun file1 =>
        (Table.refresh_indexes schema file1 t.index).map fun index1 =>
          ({ file := file1, index := index1 }, 1)

/-! ## Well-formed stored records

Predicates (all executable) describing the files the `Table` invariants
quantify over: a concatenation of framed records whose fields decode under
the schema and produce no spurious delimiter window. -/

/-- The encoded field bytes contain neither delimiter as a substring
(the framing assumption as the specification literally states it). -/
def noDelimSub (f : List Nat) : Bool :=
  (List.range (f.length + 1)).all fun i =>
    decide ((f.drop i).take 8 ≠ ROWS_DELIMITER ∧ (f.drop i).take 8 ≠ FIELDS_DELIMITER)

/-- No 8-byte window of `f ++ D` that ends strictly before the end of `D`
equals a delimiter — the condition under which the scan loop recovers `f`
exactly when `D` is the delimiter written after it.  (Stronger than
`noDelimSub f`: windows reaching into `D` are also constrained.) -/
def cleanFieldWith (f D : List Nat) : Bool :=
  (List.range f.length).all fun i =>
    decide (((f ++ D).drop i).take 8 ≠ ROWS_DELIMITER ∧
            ((f ++ D).drop i).take 8 ≠ FIELDS_DELIMITER)

/-- Every field of a record is clean with respect to the delimiter written
after it (`FIELDS_DELIMITER` between fields, `ROWS_DELIMITER` last); a
record has at least one field. -/
def cleanFields : List (List Nat) → Bool
  | [] => false
  | [f] => cleanFieldWith f ROWS_DELIMITER
  | f :: fs => cleanFieldWith f FIELDS_DELIMITER && cleanFields fs

/-- The row a stored record decodes to (only used where `wfRecord`
guarantees decoding succeeds). -/
def recRow (schema : Schema) (fs : List (List Nat)) : Row :=
  match Row.from_bytes schema fs with
  | .ok r => r
  | .error _ => []

/-- The id of a stored record's row. -/
def recId (schema : Schema) (fs : List (List Nat)) : Int := rowIdD (recRow schema fs)

/-- A well-formed stored record: clean framing, field count equal to the
schema arity, actual bytes (each < 256), decodable, and an `Int` value under
the `id` key. -/
def wfRecord (schema : Schema) (fs : List (List Nat)) : Bool :=
  cleanFields fs && decide (fs.length = schema.length) &&
    isOkE (Row.from_bytes schema fs) &&
    (match (recRow schema fs).lookup "id" with
     | some (.vint _) => true
     | _ => false) &&
    fs.all fun f => f.all fun b => b < 256

/-- The data file holding the given records in order. -/
def recsBytes (recs : List (List (List Nat))) : List Nat :=
  (recs.map recordBytes).flatten

/-- Every record of the file is well formed. -/
def wfRecords (schema : Schema) (recs : List (List (List Nat))) : Bool :=
  recs.all (wfRecord schema)

/-- The `(row, begin, end)` triples a full scan starting at `pos` yields for
the given records. -/
def triplesFrom (schema : Schema) : Nat → List (List (List Nat)) → List (Row × Nat × Nat)
  | _, [] => []
  | pos, r :: rs =>
    (recRow schema r, pos, pos + (recordBytes r).length) ::
      triplesFrom schema (pos + (recordBytes r).length) rs

/-- Sequential `write_row` calls (the many-records round-trip scenario). -/
def writeRows (file : List Nat) : List Row → Except DbError (List Nat)
  | [] => .ok file
  | r :: rs => (write_row file r).bind fun fbe => writeRows fbe.1 rs

/-- The bytes `to_bytes` produces for a value (only used where
representability guarantees encoding succeeds). -/
def encValue (v : Value) : List Nat :=
  match v.to_bytes with
  | .ok bs => bs
  | .error _ => []

/-- The encoded fields of a row. -/
def encRow (row : Row) : List (List Nat) := row.map fun kv => encValue kv.2

/-- The row carries exactly the schema's field names, in order, with values
of the schema's datatypes. -/
def rowFitsSchema (schema : Schema) (row : Row) : Bool :=
  decide (row.length = schema.length) &&
    (schema.zip row).all fun fr =>
      fr.1.name = fr.2.1 && fr.1.datatype = fr.2.2.tag

/-- Every value of the row is representable by the codec. -/
def rowRepresentable (row : Row) : Bool := row.all fun kv => representable kv.2

/-! ## Codec lemmas -/

theorem length_beBytes (w n : Nat) : (beBytes w n).length = w := by
  induction w generalizing n with
  | zero => rfl
  | succ w ih => simp [beBytes, ih]

theorem beVal_append_singleton (xs : List Nat) (b : Nat) :
    beVal (xs ++ [b]) = beVal xs * 256 + b := by
  simp [beVal, List.foldl_append]

/-- Splitting a power-of-256 modulus into its low byte and high part. -/
theorem mod_pow256_split (n w : Nat) :
    n % 256 ^ (w + 1) = n % 256 + 256 * (n / 256 % 256 ^ w) := by
  rw [pow_succ']
  exact Nat.mod_mul

theorem beVal_beBytes (w n : Nat) : beVal (beBytes w n) = n % 256 ^ w := by
  induction w generalizing n with
  | zero => simp [beBytes, beVal, Nat.mod_one]
  | succ w ih =>
    rw [beBytes, beVal_append_singleton, ih, mod_pow256_split]
    omega

theorem length_leBytes (w n : Nat) : (leBytes w n).length = w := by
  induction w generalizing n with
  | zero => rfl
  | succ w ih => simp [leBytes, ih]

theorem leVal_leBytes (w n : Nat) : leVal (leBytes w n) = n % 256 ^ w := by
  induction w generalizing n with
  | zero => simp [leBytes, leVal, Nat.mod_one]
  | succ w ih =>
    show (n % 256) + 256 * leVal (leBytes w (n / 256)) = n % 256 ^ (w + 1)
    rw [ih, mod_pow256_split]

/-- Bounds of `Int` remainder by a positive power of two, packaged for
`omega`. -/
theorem emod_facts (i : Int) (w : Nat) :
    0 ≤ i % (2 ^ w) ∧ i % (2 ^ w) < 2 ^ w ∧
      (((i % (2 ^ w)).toNat : Int)) = i % (2 ^ w) := by
  have hpos : (0 : Int) < 2 ^ w := by positivity
  refine ⟨Int.emod_nonneg i (by omega), Int.emod_lt_of_pos i hpos, ?_⟩
  exact Int.toNat_of_nonneg (Int.emod_nonneg i (by omega))

theorem intFromBytes_intToBytes {i : Int} (h1 : -(2 ^ 31) ≤ i) (h2 : i < 2 ^ 31) :
    intFromBytes (beBytes 4 (i % 2 ^ 32).toNat) = .ok (.vint i) := by
  obtain ⟨hf1, hf2, hf3⟩ := emod_facts i 32
  have hlen : (beBytes 4 (i % 2 ^ 32).toNat).length = 4 := length_beBytes _ _
  have hval : beVal (beBytes 4 (i % 2 ^ 32).toNat) = (i % 2 ^ 32).toNat := by
    rw [beVal_beBytes]
    have h4 : (256 : Nat) ^ 4 = 2 ^ 32 := by norm_num
    rw [h4]
    omega
  unfold intFromBytes
  rw [hlen]
  simp only [if_true, hval, Except.ok.injEq, Value.vint.injEq]
  split_ifs with hlt <;> omega

theorem dtFromBytes_dtToBytes {t : Int} (h1 : -(2 ^ 63) ≤ t) (h2 : t < 2 ^ 63) :
    dtFromBytes (beBytes 8 (t % 2 ^ 64).toNat) = .ok (.vdatetime t) := by
  obtain ⟨hf1, hf2, hf3⟩ := emod_facts t 64
  have hlen : (beBytes 8 (t % 2 ^ 64).toNat).length = 8 := length_beBytes _ _
  have hval : beVal (beBytes 8 (t % 2 ^ 64).toNat) = (t % 2 ^ 64).toNat := by
    rw [beVal_beBytes]
    have h8 : (256 : Nat) ^ 8 = 2 ^ 64 := by norm_num
    rw [h8]
    omega
  unfold dtFromBytes
  rw [hlen]
  simp only [if_true, hval, Except.ok.injEq, Value.vdatetime.injEq]
  split_ifs with hlt <;> omega

/-! ### UTF-8 round trip -/

theorem utf8DecodeChar_encodeChar {c : Nat} (h : validCp c = true) (rest : List Nat) :
    utf8DecodeChar (utf8EncodeChar c ++ rest) = some (c, rest) := by
  have hv1 : c < 0x110000 := by
    have hx := h; unfold validCp at hx
    simp only [Bool.and_eq_true, decide_eq_true_eq] at hx
    exact hx.1
  have hv2 : ¬(0xD800 ≤ c ∧ c < 0xE000) := by
    have hx := h; unfold validCp at hx
    simp only [Bool.and_eq_true, Bool.not_eq_true', Bool.and_eq_false_iff,
      decide_eq_true_eq, decide_eq_false_iff_not] at hx
    omega
  by_cases h1 : c < 0x80
  · rw [utf8EncodeChar, if_pos h1, List.cons_append, List.nil_append, utf8DecodeChar]
    simp [h1]
  · by_cases h2 : c < 0x800
    · rw [utf8EncodeChar, if_neg h1, if_pos h2]
      show utf8DecodeChar ((0xC0 + c / 64) :: (0x80 + c % 64) :: rest) = _
      rw [utf8DecodeChar]
      have hb1 : ¬(0xC0 + c / 64 < 0x80) := by omega
      have hb2 : ¬(0xC0 + c / 64 < 0xC2) := by omega
      have hb3 : 0xC0 + c / 64 < 0xE0 := by omega
      have hc : utf8Cont (0x80 + c % 64) = true := by
        unfold utf8Cont; simp only [Bool.and_eq_true, decide_eq_true_eq]; omega
      simp only [hb1, hb2, hb3, if_false, if_true, ite_false, ite_true, utf8Dec2, hc]
      rw [show (0xC0 + c / 64 - 0xC0) * 64 + (0x80 + c % 64 - 0x80) = c by omega]
    · by_cases h3 : c < 0x10000
      · rw [utf8EncodeChar, if_neg h1, if_neg h2, if_pos h3]
        show utf8DecodeChar
          ((0xE0 + c / 4096) :: (0x80 + c / 64 % 64) :: (0x80 + c % 64) :: rest) = _
        rw [utf8DecodeChar]
        have hb1 : ¬(0xE0 + c / 4096 < 0x80) := by omega
        have hb2 : ¬(0xE0 + c / 4096 < 0xC2) := by omega
        have hb3 : ¬(0xE0 + c / 4096 < 0xE0) := by omega
        have hb4 : 0xE0 + c / 4096 < 0xF0 := by omega
        have hcont2 : utf8Cont (0x80 + c % 64) = true := by
          unfold utf8Cont; simp only [Bool.and_eq_true, decide_eq_true_eq]; omega
        simp only [hb1, hb2, hb3, hb4, if_false, if_true, ite_false, ite_true, utf8Dec3]
        by_cases hE0 : c < 0x1000
        · have hEq : 0xE0 + c / 4096 = 0xE0 := by omega
          have hg : (0xA0 ≤ 0x80 + c / 64 % 64 && 0x80 + c / 64 % 64 < 0xC0) = true := by
            simp only [Bool.and_eq_true, decide_eq_true_eq]; omega
          simp only [if_pos hEq, hg, hcont2, Bool.and_self, ite_true, if_true]
          rw [show (0xE0 + c / 4096 - 0xE0) * 4096 + (0x80 + c / 64 % 64 - 0x80) * 64
            + (0x80 + c % 64 - 0x80) = c by omega]
        · by_cases hED : 0xD000 ≤ c ∧ c < 0xE000
          · have hNe : ¬(0xE0 + c / 4096 = 0xE0) := by omega
            have hEq : 0xE0 + c / 4096 = 0xED := by omega
            have hg : (0x80 ≤ 0x80 + c / 64 % 64 && 0x80 + c / 64 % 64 < 0xA0) = true := by
              simp only [Bool.and_eq_true, decide_eq_true_eq]; omega
            simp only [if_neg hNe, if_pos hEq, hg, hcont2, Bool.and_self, ite_true, if_true]
            rw [show (0xE0 + c / 4096 - 0xE0) * 4096 + (0x80 + c / 64 % 64 - 0x80) * 64
              + (0x80 + c % 64 - 0x80) = c by omega]
          · have hNe : ¬(0xE0 + c / 4096 = 0xE0) := by omega
            have hNe2 : ¬(0xE0 + c / 4096 = 0xED) := by omega
            have hcont1 : utf8Cont (0x80 + c / 64 % 64) = true := by
              unfold utf8Cont; simp only [Bool.and_eq_true, decide_eq_true_eq]; omega
            simp only [if_neg hNe, if_neg hNe2, hcont1, hcont2, Bool.and_self, ite_true,
              if_true]
            rw [show (0xE0 + c / 4096 - 0xE0) * 4096 + (0x80 + c / 64 % 64 - 0x80) * 64
              + (0x80 + c % 64 - 0x80) = c by omega]
      · rw [utf8EncodeChar, if_neg h1, if_neg h2, if_neg h3]
        show utf8DecodeChar ((0xF0 + c / 262144) :: (0x80 + c / 4096 % 64) ::
            (0x80 + c / 64 % 64) :: (0x80 + c % 64) :: rest) = _
        rw [utf8DecodeChar]
        have hb1 : ¬(0xF0 + c / 262144 < 0x80) := by omega
        have hb2 : ¬(0xF0 + c / 262144 < 0xC2) := by omega
        have hb3 : ¬(0xF0 + c / 262144 < 0xE0) := by omega
        have hb4 : ¬(0xF0 + c / 262144 < 0xF0) := by omega
        have hb5 : 0xF0 + c / 262144 < 0xF5 := by omega
        have hcont2 : utf8Cont (0x80 + c / 64 % 64) = true := by
          unfold utf8Cont; simp only [Bool.and_eq_true, decide_eq_true_eq]; omega
        have hcont3 : utf8Cont (0x80 + c % 64) = true := by
          unfold utf8Cont; simp only [Bool.and_eq_true, decide_eq_true_eq]; omega
        simp only [hb1, hb2, hb3, hb4, hb5, if_false, if_true, ite_false, ite_true, utf8Dec4]
        by_cases hF0 : c < 0x40000
        · have hEq : 0xF0 + c / 262144 = 0xF0 := by omega
          have hg : (0x90 ≤ 0x80 + c / 4096 % 64 && 0x80 + c / 4096 % 64 < 0xC0) = true := by
            simp only [Bool.and_eq_true, decide_eq_true_eq]; omega
          simp only [if_pos hEq, hg, hcont2, hcont3, Bool.and_self, ite_true, if_true]
          rw [show (0xF0 + c / 262144 - 0xF0) * 262144 + (0x80 + c / 4096 % 64 - 0x80) * 4096
            + (0x80 + c / 64 % 64 - 0x80) * 64 + (0x80 + c % 64 - 0x80) = c by omega]
        · by_cases hF4 : 0x100000 ≤ c
          · have hNe : ¬(0xF0 + c / 262144 = 0xF0) := by omega
            have hEq : 0xF0 + c / 262144 = 0xF4 := by omega
            have hg : (0x80 ≤ 0x80 + c / 4096 % 64 && 0x80 + c / 4096 % 64 < 0x90) = true := by
              simp only [Bool.and_eq_true, decide_eq_true_eq]; omega
            simp only [if_neg hNe, if_pos hEq, hg, hcont2, hcont3, Bool.and_self, ite_true,
              if_true]
            rw [show (0xF0 + c / 262144 - 0xF0) * 262144 + (0x80 + c / 4096 % 64 - 0x80) * 4096
              + (0x80 + c / 64 % 64 - 0x80) * 64 + (0x80 + c % 64 - 0x80) = c by omega]
          · have hNe : ¬(0xF0 + c / 262144 = 0xF0) := by omega
            have hNe2 : ¬(0xF0 + c / 262144 = 0xF4) := by omega
            have hcont1 : utf8Cont (0x80 + c / 4096 % 64) = true := by
              unfold utf8Cont; simp only [Bool.and_eq_true, decide_eq_true_eq]; omega
            simp only [if_neg hNe, if_neg hNe2, hcont1, hcont2, hcont3, Bool.and_self,
              ite_true, if_true]
            rw [show (0xF0 + c / 262144 - 0xF0) * 262144 + (0x80 + c / 4096 % 64 - 0x80) * 4096
              + (0x80 + c / 64 % 64 - 0x80) * 64 + (0x80 + c % 64 - 0x80) = c by omega]

theorem utf8EncodeChar_ne_nil (c : Nat) : utf8EncodeChar c ≠ [] := by
  unfold utf8EncodeChar
  split_ifs <;> simp

theorem utf8Decode_encodeChar {c : Nat} (h : validCp c = true) (rest : List Nat) :
    utf8Decode (utf8EncodeChar c ++ rest) = (utf8Decode rest).map (c :: ·) := by
  obtain ⟨b, bs, hbs⟩ : ∃ b bs, utf8EncodeChar c = b :: bs := by
    cases hx : utf8EncodeChar c with
    | nil => exact absurd hx (utf8EncodeChar_ne_nil c)
    | cons b bs => exact ⟨b, bs, rfl⟩
  have hchar := utf8DecodeChar_encodeChar h rest
  rw [hbs, List.cons_append, utf8Decode_cons, ← List.cons_append, ← hbs, hchar]

theorem utf8Decode_encode {s : List Nat} (h : s.all validCp = true) :
    utf8Decode (s.map utf8EncodeChar).flatten = some s := by
  induction s with
  | nil =>
    simp only [List.map_nil, List.flatten_nil]
    rw [utf8Decode]
  | cons c s ih =>
    simp only [List.all_cons, Bool.and_eq_true] at h
    rw [List.map_cons, List.flatten_cons, utf8Decode_encodeChar h.1, ih h.2]
    rfl

/-! ## C6: codec round trip -/

/-- The codec round trip, as an internal lemma. -/
theorem value_roundtrip (v : Value) (h : representable v = true) :
    v.to_bytes.bind (DTy.from_bytes v.tag) = .ok v := by
  cases v with
  | vint i =>
    simp only [representable, decide_eq_true_eq] at h
    rw [Value.to_bytes, intToBytes, if_pos h]
    exact intFromBytes_intToBytes h.1 h.2
  | vstr s =>
    have hs : s.all validCp = true := h
    rw [Value.to_bytes, strToBytes, if_pos hs]
    show strFromBytes (s.map utf8EncodeChar).flatten = .ok (.vstr s)
    rw [strFromBytes, utf8Decode_encode hs]
  | vbool b =>
    cases b <;> rfl
  | vdatetime t =>
    simp only [representable, decide_eq_true_eq] at h
    rw [Value.to_bytes, dtToBytes, if_pos h]
    exact dtFromBytes_dtToBytes h.1 h.2

/-- C6: for every representable value of variant Int, Bool, DateTime, or
Str, decoding the bytes produced by encoding the value under the value's own
variant tag yields the value back; Int is encoded as 4-byte big-endian two's
complement and DateTime as 8-byte big-endian signed seconds since the Unix
epoch (see `intToBytes` / `dtToBytes`, which write `beBytes` of the value's
two's-complement residue). -/
theorem C6_codec_roundtrip (v : Value) (h : representable v = true) :
    v.to_bytes.bind (DTy.from_bytes v.tag) = .ok v :=
  value_roundtrip v h

/-- Witness for C6 at concrete representable values of all four variants. -/
theorem C6_codec_roundtrip_witness :
    (representable (.vint (-7)) = true ∧
      (Value.vint (-7)).to_bytes.bind (DTy.from_bytes (Value.vint (-7)).tag) = .ok (.vint (-7))) ∧
    (representable (.vstr [104, 233, 8364, 128179]) = true ∧
      (Value.vstr [104, 233, 8364, 128179]).to_bytes.bind
        (DTy.from_bytes (Value.vstr [104, 233, 8364, 128179]).tag) =
        .ok (.vstr [104, 233, 8364, 128179])) ∧
    (representable (.vbool true) = true ∧
      (Value.vbool true).to_bytes.bind (DTy.from_bytes (Value.vbool true).tag) =
        .ok (.vbool true)) ∧
    (representable (.vdatetime 1700000000) = true ∧
      (Value.vdatetime 1700000000).to_bytes.bind
        (DTy.from_bytes (Value.vdatetime 1700000000).tag) = .ok (.vdatetime 1700000000)) :=
  ⟨⟨by decide, C6_codec_roundtrip _ (by decide)⟩,
   ⟨by decide, C6_codec_roundtrip _ (by decide)⟩,
   ⟨by decide, C6_codec_roundtrip _ (by decide)⟩,
   ⟨by decide, C6_codec_roundtrip _ (by decide)⟩⟩

/-! ## C7: erase -/

/-- C7: for every file and offsets with `begin < end ≤ length`, `erase`
leaves the bytes before `begin` concatenated with the bytes from `end` on
(shifting the tail left); `erase` with `begin ≥ end` fails; and erasing
`(5, 11)` from a file holding `"hello world, my dear"` yields
`"hello, my dear"`. -/
theorem C7_erase (file : List Nat) (b e : Nat) :
    (b < e → e ≤ file.length → erase file b e = .ok (file.take b ++ file.drop e)) ∧
    (e ≤ b → erase file b e = .error .valueError) ∧
    erase [104, 101, 108, 108, 111, 32, 119, 111, 114, 108, 100, 44, 32, 109, 121, 32,
      100, 101, 97, 114] 5 11 =
      .ok [104, 101, 108, 108, 111, 44, 32, 109, 121, 32, 100, 101, 97, 114] := by
  refine ⟨fun hbe hel => ?_, fun hle => ?_, by decide⟩
  · rw [erase, if_neg (by omega)]
    have hz : b - file.length = 0 := by omega
    rw [hz]
    simp
  · rw [erase, if_pos hle]

/-- Witness for C7 at a concrete file and offsets. -/
theorem C7_erase_witness :
    ((1 : Nat) < 3 → 3 ≤ [10, 20, 30, 40].length →
      erase [10, 20, 30, 40] 1 3 = .ok ([10, 20, 30, 40].take 1 ++ [10, 20, 30, 40].drop 3)) ∧
    ((3 : Nat) ≤ 3 → erase [10, 20, 30, 40] 3 3 = .error .valueError) ∧
    ((1 : Nat) < 3 ∧ (3 : Nat) ≤ [10, 20, 30, 40].length) :=
  ⟨(C7_erase [10, 20, 30, 40] 1 3).1, (C7_erase [10, 20, 30, 40] 3 3).2.1, by decide, by decide⟩

/-! ## TableIndex lemmas and C8 -/

/-- An index entry both `int.to_bytes` calls accept: i32 id, u64 offset. -/
def idxEntryOk (e : Int × Nat) : Bool :=
  decide (-(2 ^ 31) ≤ e.1 ∧ e.1 < 2 ^ 31) && decide (e.2 < 2 ^ 64)

/-- The serialization of a tree as the index file format describes it:
concatenated 12-byte entries, id as 4-byte little-endian signed, offset as
8-byte little-endian unsigned, in tree (key) order. -/
def dumpBytesP (t : List (Int × Nat)) : List Nat :=
  (t.map fun e => leBytes 4 (e.1 % 2 ^ 32).toNat ++ leBytes 8 e.2).flatten

theorem idxEntryBytes_ok {i : Int} {p : Nat} (h : idxEntryOk (i, p) = true) :
    idxEntryBytes i p = .ok (leBytes 4 (i % 2 ^ 32).toNat ++ leBytes 8 p) := by
  unfold idxEntryOk at h
  simp only [Bool.and_eq_true, decide_eq_true_eq] at h
  rw [idxEntryBytes, if_pos h.1, if_pos h.2]

theorem dumpBytes_ok {t : List (Int × Nat)} (h : t.all idxEntryOk = true) :
    dumpBytes t = .ok (dumpBytesP t) := by
  induction t with
  | nil => rfl
  | cons e t ih =>
    simp only [List.all_cons, Bool.and_eq_true] at h
    obtain ⟨he, ht⟩ := h
    cases e with
    | mk i p =>
      rw [dumpBytes, idxEntryBytes_ok he, ih ht]
      rfl

theorem leSignedVal_leBytes4 {i : Int} (h1 : -(2 ^ 31) ≤ i) (h2 : i < 2 ^ 31) :
    leSignedVal (leBytes 4 (i % 2 ^ 32).toNat) = i := by
  obtain ⟨hf1, hf2, hf3⟩ := emod_facts i 32
  have hval : leVal (leBytes 4 (i % 2 ^ 32).toNat) = (i % 2 ^ 32).toNat := by
    rw [leVal_leBytes]
    have h4 : (256 : Nat) ^ 4 = 2 ^ 32 := by norm_num
    rw [h4]
    omega
  rw [leSignedVal]
  simp only [hval, length_leBytes]
  norm_num
  split_ifs with hlt <;> omega

theorem leVal_leBytes8 {p : Nat} (h : p < 2 ^ 64) :
    leVal (leBytes 8 p) = p := by
  rw [leVal_leBytes]
  have h8 : (256 : Nat) ^ 8 = 2 ^ 64 := by norm_num
  rw [h8]
  omega

/-- Inserting a key greater than every key of a sorted association list
appends at the end. -/
theorem treeInsert_append {t : List (Int × Nat)} {i : Int} (p : Nat)
    (h : ∀ e ∈ t, e.1 < i) : treeInsert t i p = t ++ [(i, p)] := by
  induction t with
  | nil => rfl
  | cons e t ih =>
    cases e with
    | mk j q =>
      have hj : j < i := h (j, q) (by simp)
      rw [treeInsert, if_neg (by omega), if_neg (by omega), ih]
      · rfl
      · intro e he
        exact h e (by simp [he])

theorem loadLoop_dumpBytesP {t : List (Int × Nat)} (hok : t.all idxEntryOk = true) :
    ∀ acc : List (Int × Nat), (∀ e ∈ acc, ∀ f ∈ t, e.1 < f.1) →
      (t.Pairwise fun a b => a.1 < b.1) →
      loadLoop (dumpBytesP t) acc = acc ++ t := by
  induction t with
  | nil => intro acc _ _; simp [dumpBytesP, loadLoop]
  | cons e t ih =>
    intro acc hlt hsort
    simp only [List.all_cons, Bool.and_eq_true] at hok
    obtain ⟨he, ht⟩ := hok
    cases e with
    | mk i p =>
      unfold idxEntryOk at he
      simp only [Bool.and_eq_true, decide_eq_true_eq] at he
      obtain ⟨hf1, hf2, hf3⟩ := emod_facts i 32
      have hlen4 : (leBytes 4 (i % 2 ^ 32).toNat).length = 4 := length_leBytes _ _
      have hlen8 : (leBytes 8 p).length = 8 := length_leBytes _ _
      have hshape : dumpBytesP ((i, p) :: t) =
          leBytes 4 (i % 2 ^ 32).toNat ++ (leBytes 8 p ++ dumpBytesP t) := by
        simp [dumpBytesP, List.append_assoc]
      obtain ⟨b0, rest0, hb0⟩ : ∃ b0 rest0,
          dumpBytesP ((i, p) :: t) = b0 :: rest0 := by
        rcases hx : dumpBytesP ((i, p) :: t) with _ | ⟨b0, rest0⟩
        · rw [hshape] at hx
          rcases hy : leBytes 4 (i % 2 ^ 32).toNat with _ | _
          · rw [hy] at hlen4; simp at hlen4
          · rw [hy] at hx; simp at hx
        · exact ⟨b0, rest0, rfl⟩
      rw [hb0, loadLoop, ← hb0, hshape]
      have htake4 : (leBytes 4 (i % 2 ^ 32).toNat ++ (leBytes 8 p ++ dumpBytesP t)).take 4 =
          leBytes 4 (i % 2 ^ 32).toNat := List.take_left' hlen4
      have hdrop4 : (leBytes 4 (i % 2 ^ 32).toNat ++ (leBytes 8 p ++ dumpBytesP t)).drop 4 =
          leBytes 8 p ++ dumpBytesP t := List.drop_left' hlen4
      have htake8 : (leBytes 8 p ++ dumpBytesP t).take 8 = leBytes 8 p := List.take_left' hlen8
      have hne : ¬(leBytes 8 p = ([] : List Nat)) := by
        intro hx; rw [hx] at hlen8; simp at hlen8
      have hdrop12 : (leBytes 4 (i % 2 ^ 32).toNat ++ (leBytes 8 p ++ dumpBytesP t)).drop 12 =
          dumpBytesP t := by
        have h12 : (12 : Nat) = (leBytes 4 (i % 2 ^ 32).toNat ++ leBytes 8 p).length := by
          rw [List.length_append, hlen4, hlen8]
        rw [← List.append_assoc, h12, List.drop_left]
      simp only [htake4, hdrop4, htake8, hdrop12, hne, if_false, ite_false]
      rw [leSignedVal_leBytes4 he.1.1 he.1.2, leVal_leBytes8 he.2]
      have hins : treeInsert acc i p = acc ++ [(i, p)] := by
        apply treeInsert_append
        intro e hemem
        exact hlt e hemem (i, p) (by simp)
      rw [hins]
      have hsort2 := (List.pairwise_cons.mp hsort).2
      have hlt2 : ∀ e ∈ acc ++ [(i, p)], ∀ f ∈ t, e.1 < f.1 := by
        intro e hemem f hfmem
        rcases List.mem_append.mp hemem with hacc | hsing
        · exact hlt e hacc f (by simp [hfmem])
        · have : e = (i, p) := by simpa using hsing
          subst this
          exact (List.pairwise_cons.mp hsort).1 f hfmem
      rw [ih ht (acc ++ [(i, p)]) hlt2 hsort2]
      simp

/-- Membership in an inserted tree. -/
theorem treeInsert_mem {t : List (Int × Nat)} {i : Int} {p : Nat} {f : Int × Nat}
    (hf : f ∈ treeInsert t i p) : f ∈ t ∨ f = (i, p) := by
  induction t with
  | nil => simp [treeInsert] at hf; simp [hf]
  | cons g t ihh =>
    cases g with
    | mk k r =>
      by_cases hk1 : i < k
      · rw [treeInsert, if_pos hk1] at hf
        rcases List.mem_cons.mp hf with rfl | hmem
        · simp
        · simp [hmem]
      · by_cases hk2 : i = k
        · rw [treeInsert, if_neg hk1, if_pos hk2] at hf
          rcases List.mem_cons.mp hf with rfl | hmem
          · simp [hk2]
          · simp [hmem]
        · rw [treeInsert, if_neg hk1, if_neg hk2] at hf
          rcases List.mem_cons.mp hf with rfl | hmem
          · simp
          · rcases ihh hmem with hx | hx
            · simp [hx]
            · simp [hx]

/-- Inserting into a sorted tree keeps it sorted. -/
theorem treeInsert_sorted {t : List (Int × Nat)} (i : Int) (p : Nat)
    (h : t.Pairwise fun a b => a.1 < b.1) :
    (treeInsert t i p).Pairwise fun a b => a.1 < b.1 := by
  induction t with
  | nil => simp [treeInsert]
  | cons e t ih =>
    cases e with
    | mk j q =>
      obtain ⟨hj, ht⟩ := List.pairwise_cons.mp h
      by_cases h1 : i < j
      · rw [treeInsert, if_pos h1]
        refine List.pairwise_cons.mpr ⟨?_, h⟩
        intro f hf
        rcases List.mem_cons.mp hf with rfl | hmem
        · exact h1
        · exact lt_trans h1 (hj f hmem)
      · by_cases h2 : i = j
        · rw [treeInsert, if_neg h1, if_pos h2]
          subst h2
          exact List.pairwise_cons.mpr ⟨hj, ht⟩
        · rw [treeInsert, if_neg h1, if_neg h2]
          refine List.pairwise_cons.mpr ⟨?_, ih ht⟩
          intro f hf
          rcases treeInsert_mem hf with hmem | rfl
          · exact hj f hmem
          · show j < i
            omega

/-- Removal is a sublist. -/
theorem treeRemove_sublist (t : List (Int × Nat)) (i : Int) :
    (treeRemove t i).Sublist t := by
  induction t with
  | nil => simp [treeRemove]
  | cons e t ih =>
    cases e with
    | mk j q =>
      by_cases h : i = j
      · rw [treeRemove, if_pos h]
        exact (List.sublist_cons_self (j, q) t)
      · rw [treeRemove, if_neg h]
        exact List.Sublist.cons₂ (j, q) ih

theorem treeInsert_all_ok {t : List (Int × Nat)} (h : t.all idxEntryOk = true)
    {i : Int} {p : Nat} (hip : idxEntryOk (i, p) = true) :
    (treeInsert t i p).all idxEntryOk = true := by
  rw [List.all_eq_true] at h ⊢
  intro e he
  rcases treeInsert_mem he with hmem | rfl
  · exact h e hmem
  · exact hip

theorem treeRemove_all_ok {t : List (Int × Nat)} (h : t.all idxEntryOk = true) (i : Int) :
    (treeRemove t i).all idxEntryOk = true := by
  rw [List.all_eq_true] at h ⊢
  intro e he
  exact h e (List.Sublist.mem he (treeRemove_sublist t i))

/-- C8: starting from a well-formed index (sorted tree, representable
entries), each of `set`, `delete` and `clear` succeeds and leaves the
on-disk file equal to the serialization of the in-memory map — the
concatenation of 12-byte entries (id as 4-byte little-endian signed, offset
as 8-byte little-endian unsigned) in ascending id order — and `load`
reconstructs exactly the in-memory map from that file. -/
theorem C8_index_invariant (s : TableIndex) (i : Int) (p : Nat)
    (hsort : s.tree.Pairwise fun a b => a.1 < b.1)
    (hok : s.tree.all idxEntryOk = true)
    (hip : idxEntryOk (i, p) = true) :
    (∃ s1, s.set i p = .ok s1 ∧ s1.tree = treeInsert s.tree i p ∧
      s1.fileBytes = dumpBytesP s1.tree ∧ (s1.tree.Pairwise fun a b => a.1 < b.1) ∧
      TableIndex.load s1.fileBytes = s1.tree) ∧
    (∃ s2, s.delete i = .ok s2 ∧ s2.tree = treeRemove s.tree i ∧
      s2.fileBytes = dumpBytesP s2.tree ∧ (s2.tree.Pairwise fun a b => a.1 < b.1) ∧
      TableIndex.load s2.fileBytes = s2.tree) ∧
    (∃ s3, s.clear = .ok s3 ∧ s3.tree = [] ∧ s3.fileBytes = dumpBytesP s3.tree ∧
      TableIndex.load s3.fileBytes = s3.tree) := by
  refine ⟨?_, ?_, ?_⟩
  · have hsort1 := treeInsert_sorted i p hsort
    have hok1 := treeInsert_all_ok hok hip
    refine ⟨{ tree := treeInsert s.tree i p, fileBytes := dumpBytesP (treeInsert s.tree i p) },
      ?_, rfl, rfl, hsort1, ?_⟩
    · rw [TableIndex.set, TableIndex.dump, dumpBytes_ok hok1]
      rfl
    · show loadLoop (dumpBytesP (treeInsert s.tree i p)) [] = treeInsert s.tree i p
      rw [loadLoop_dumpBytesP hok1 [] (by simp) hsort1]
      rfl
  · have hsort2 := List.Pairwise.sublist (treeRemove_sublist s.tree i) hsort
    have hok2 := treeRemove_all_ok hok i
    refine ⟨{ tree := treeRemove s.tree i, fileBytes := dumpBytesP (treeRemove s.tree i) },
      ?_, rfl, rfl, hsort2, ?_⟩
    · rw [TableIndex.delete, TableIndex.dump, dumpBytes_ok hok2]
      rfl
    · show loadLoop (dumpBytesP (treeRemove s.tree i)) [] = treeRemove s.tree i
      rw [loadLoop_dumpBytesP hok2 [] (by simp) hsort2]
      rfl
  · exact ⟨{ tree := [], fileBytes := [] }, rfl, rfl, rfl, by rw [TableIndex.load, loadLoop]⟩

/-- Witness for C8 at a concrete one-entry index and a fresh entry. -/
theorem C8_index_invariant_witness :
    ((TableIndex.mk [(0, 5)] (dumpBytesP [(0, 5)])).tree.Pairwise fun a b => a.1 < b.1) ∧
    (TableIndex.mk [(0, 5)] (dumpBytesP [(0, 5)])).tree.all idxEntryOk = true ∧
    idxEntryOk (3, 7) = true ∧
    ((∃ s1, (TableIndex.mk [(0, 5)] (dumpBytesP [(0, 5)])).set 3 7 = .ok s1 ∧
      s1.tree = treeInsert (TableIndex.mk [(0, 5)] (dumpBytesP [(0, 5)])).tree 3 7 ∧
      s1.fileBytes = dumpBytesP s1.tree ∧ (s1.tree.Pairwise fun a b => a.1 < b.1) ∧
      TableIndex.load s1.fileBytes = s1.tree) ∧
    (∃ s2, (TableIndex.mk [(0, 5)] (dumpBytesP [(0, 5)])).delete 3 = .ok s2 ∧
      s2.tree = treeRemove (TableIndex.mk [(0, 5)] (dumpBytesP [(0, 5)])).tree 3 ∧
      s2.fileBytes = dumpBytesP s2.tree ∧ (s2.tree.Pairwise fun a b => a.1 < b.1) ∧
      TableIndex.load s2.fileBytes = s2.tree) ∧
    (∃ s3, (TableIndex.mk [(0, 5)] (dumpBytesP [(0, 5)])).clear = .ok s3 ∧ s3.tree = [] ∧
      s3.fileBytes = dumpBytesP s3.tree ∧ TableIndex.load s3.fileBytes = s3.tree)) :=
  ⟨by decide, by decide, by decide,
    C8_index_invariant (TableIndex.mk [(0, 5)] (dumpBytesP [(0, 5)])) 3 7
      (by decide) (by decide) (by decide)⟩

/-! ## Scan-loop lemmas

The central fact about `read_row`'s byte-at-a-time loop: over a stream that
continues with a clean field followed by its delimiter, the loop pushes
exactly that field and either stops (`ROWS_DELIMITER`) or goes on with a
cleared buffer (`FIELDS_DELIMITER`). -/

theorem cleanFieldWith_spec {f D : List Nat} (h : cleanFieldWith f D = true) :
    ∀ j, 8 ≤ j → j < f.length + 8 →
      ((f ++ D).drop (j - 8)).take 8 ≠ ROWS_DELIMITER ∧
        ((f ++ D).drop (j - 8)).take 8 ≠ FIELDS_DELIMITER := by
  rw [cleanFieldWith, List.all_eq_true] at h
  intro j hj8 hjlt
  have hmem : j - 8 ∈ List.range f.length := List.mem_range.mpr (by omega)
  have := h (j - 8) hmem
  simpa using this

theorem scanRow_field (D : List Nat) (hD : D = ROWS_DELIMITER ∨ D = FIELDS_DELIMITER)
    (f : List Nat)
    (hwin : ∀ j, 8 ≤ j → j < f.length + 8 →
      ((f ++ D).drop (j - 8)).take 8 ≠ ROWS_DELIMITER ∧
        ((f ++ D).drop (j - 8)).take 8 ≠ FIELDS_DELIMITER) :
    ∀ (s : List Nat), ∀ (buf : List Nat), buf ++ s = f ++ D → s ≠ [] →
      ∀ (rest : List Nat) (fields : List (List Nat)),
      scanRow (s ++ rest) buf fields =
        if D = ROWS_DELIMITER then (fields ++ [f], s.length, true)
        else ((scanRow rest [] (fields ++ [f])).1,
              s.length + (scanRow rest [] (fields ++ [f])).2.1,
              (scanRow rest [] (fields ++ [f])).2.2) := by
  have hDlen : D.length = 8 := by rcases hD with rfl | rfl <;> rfl
  have hFR : FIELDS_DELIMITER ≠ ROWS_DELIMITER := by decide
  intro s
  induction s with
  | nil => intro buf _ hne; exact absurd rfl hne
  | cons b s2 ih =>
    intro buf hsum _ rest fields
    have hsum1 : (buf ++ [b]) ++ s2 = f ++ D := by
      rw [List.append_assoc]
      simpa using hsum
    have htot : (f ++ D).length = f.length + 8 := by
      rw [List.length_append, hDlen]
    rw [List.cons_append, scanRow]
    rcases hs2 : s2 with _ | ⟨b2, s3⟩
    · -- the byte just consumed completes the delimiter
      subst hs2
      have hbuf1 : buf ++ [b] = f ++ D := by simpa using hsum1
      have hlen1 : (buf ++ [b]).length = f.length + 8 := by rw [hbuf1, htot]
      have h8 : 8 ≤ (buf ++ [b]).length := by omega
      have hdropD : (buf ++ [b]).drop ((buf ++ [b]).length - 8) = D := by
        rw [hlen1, show f.length + 8 - 8 = f.length by omega, hbuf1, List.drop_left' rfl]
      have htakef : (buf ++ [b]).take ((buf ++ [b]).length - 8) = f := by
        rw [hlen1, show f.length + 8 - 8 = f.length by omega, hbuf1, List.take_left' rfl]
      rcases hD with rfl | rfl
      · simp only [h8, if_true, ite_true, hdropD, htakef, if_pos rfl]
        simp
      · rw [if_pos h8]
        simp only [hdropD, htakef]
        simp [hFR, Nat.add_comm]
    · -- the stream continues inside the field
      have hs2ne : s2 ≠ [] := by rw [hs2]; simp
      rw [← hs2]
      have hlen2 : (buf ++ [b]).length < f.length + 8 := by
        have hlensum := congrArg List.length hsum1
        have hpos : 0 < s2.length := by rw [hs2]; simp
        simp only [List.length_append, List.length_singleton, hDlen] at hlensum
        simp only [List.length_append, List.length_singleton]
        omega
      have hbranch := ih (buf ++ [b]) hsum1 hs2ne rest fields
      by_cases h8 : 8 ≤ (buf ++ [b]).length
      · set n := (buf ++ [b]).length with hn
        have htk : (f ++ D).take n = buf ++ [b] := by
          rw [← hsum1]
          exact List.take_left' hn.symm
        have hwindow : (buf ++ [b]).drop (n - 8) = ((f ++ D).drop (n - 8)).take 8 := by
          rw [← htk, List.drop_take]
          congr 1
          omega
        obtain ⟨hw1, hw2⟩ := hwin n h8 hlen2
        rw [if_pos h8, hwindow, if_neg hw1, if_neg hw2, hbranch]
        split_ifs with hDR
        · simp only [List.length_cons]
        · simp only [List.length_cons, Prod.mk.injEq]
          exact ⟨trivial, by omega, trivial⟩
      · rw [if_neg h8, hbranch]
        split_ifs with hDR
        · simp only [List.length_cons]
        · simp only [List.length_cons, Prod.mk.injEq]
          exact ⟨trivial, by omega, trivial⟩

/-- Scanning a full clean record pushes exactly its fields and stops at the
closing `ROWS_DELIMITER` having consumed exactly the record's bytes. -/
theorem scanRow_record {fs : List (List Nat)} (h : cleanFields fs = true) :
    ∀ (rest : List Nat) (acc : List (List Nat)),
      scanRow (recordBytes fs ++ rest) [] acc =
        (acc ++ fs, (recordBytes fs).length, true) := by
  have hFR : ¬(FIELDS_DELIMITER = ROWS_DELIMITER) := by decide
  induction fs with
  | nil => simp [cleanFields] at h
  | cons f fs ih =>
    intro rest acc
    rcases fs with _ | ⟨f2, fs2⟩
    · have hclean : cleanFieldWith f ROWS_DELIMITER = true := by
        simpa [cleanFields] using h
      have hwin := cleanFieldWith_spec hclean
      have happ : recordBytes [f] = f ++ ROWS_DELIMITER := by
        simp [recordBytes, fieldsBytes]
      rw [happ]
      have hstep := scanRow_field ROWS_DELIMITER (Or.inl rfl) f hwin
        (f ++ ROWS_DELIMITER) [] (by simp) (by simp [ROWS_DELIMITER]) rest acc
      rw [hstep, if_pos rfl]
    · have hcleans : cleanFieldWith f FIELDS_DELIMITER = true ∧
          cleanFields (f2 :: fs2) = true := by
        simpa [cleanFields] using h
      have hwin := cleanFieldWith_spec hcleans.1
      have happ : recordBytes (f :: f2 :: fs2) =
          (f ++ FIELDS_DELIMITER) ++ recordBytes (f2 :: fs2) := by
        simp [recordBytes, fieldsBytes, List.append_assoc]
      rw [happ, List.append_assoc]
      have hstep := scanRow_field FIELDS_DELIMITER (Or.inr rfl) f hwin
        (f ++ FIELDS_DELIMITER) [] (by simp) (by simp [FIELDS_DELIMITER])
        (recordBytes (f2 :: fs2) ++ rest) acc
      rw [hstep, if_neg hFR, ih hcleans.2]
      simp [List.append_assoc, Prod.mk.injEq]
      omega

/-- A file made of records, when nonempty, ends with `ROWS_DELIMITER`. -/
theorem recsBytes_ends {recs : List (List (List Nat))} (h : recs ≠ []) :
    ∃ C, recsBytes recs = C ++ ROWS_DELIMITER := by
  induction recs with
  | nil => exact absurd rfl h
  | cons r recs ih =>
    rcases recs with _ | ⟨r2, recs2⟩
    · exact ⟨fieldsBytes r, by simp [recsBytes, recordBytes]⟩
    · obtain ⟨C, hC⟩ := ih (by simp)
      refine ⟨recordBytes r ++ C, ?_⟩
      show recsBytes (r :: r2 :: recs2) = recordBytes r ++ C ++ ROWS_DELIMITER
      have : recsBytes (r :: r2 :: recs2) = recordBytes r ++ recsBytes (r2 :: recs2) := by
        simp [recsBytes]
      rw [this, hC, List.append_assoc]

/-- Every record has at least 8 bytes (its closing delimiter). -/
theorem recordBytes_len (fs : List (List Nat)) : 8 ≤ (recordBytes fs).length := by
  rw [recordBytes, List.length_append]
  simp [ROWS_DELIMITER]

/-- `read_row` at the boundary position of a well-formed record preceded by
whole records reads exactly that record. -/
theorem read_row_at {schema : Schema} {r : List (List Nat)} (hwf : wfRecord schema r = true)
    (A B : List Nat) (hA : A = [] ∨ ∃ C, A = C ++ ROWS_DELIMITER) :
    read_row schema (A ++ (recordBytes r ++ B)) A.length =
      .ok (some (recRow schema r, A.length, A.length + (recordBytes r).length)) := by
  unfold wfRecord at hwf
  simp only [Bool.and_eq_true, decide_eq_true_eq] at hwf
  obtain ⟨⟨⟨⟨hclean, hlen⟩, hdec⟩, hid⟩, hbytes⟩ := hwf
  have hrl := recordBytes_len r
  have hfl : (A ++ (recordBytes r ++ B)).length = A.length + (recordBytes r).length + B.length := by
    simp [List.length_append]
    omega
  have hpos : A.length ≠ (A ++ (recordBytes r ++ B)).length := by
    rw [hfl]; omega
  rw [read_row, if_neg hpos]
  have hcheck : pointerCheck (A ++ (recordBytes r ++ B)) A.length = .ok () := by
    rcases hA with rfl | ⟨C, rfl⟩
    · rw [pointerCheck]
      simp
    · have hClen : (C ++ ROWS_DELIMITER).length = C.length + 8 := by
        simp [ROWS_DELIMITER]
      have h0 : ¬((C ++ ROWS_DELIMITER).length = 0) := by omega
      have h8 : 8 ≤ (C ++ ROWS_DELIMITER).length := by omega
      rw [pointerCheck, if_neg h0, if_pos h8]
      have hdrop : ((C ++ ROWS_DELIMITER) ++ (recordBytes r ++ B)).drop
          ((C ++ ROWS_DELIMITER).length - 8) = ROWS_DELIMITER ++ (recordBytes r ++ B) := by
        rw [hClen, show C.length + 8 - 8 = C.length by omega, List.append_assoc,
          List.drop_left' rfl]
      rw [hdrop, List.take_left' (show ROWS_DELIMITER.length = 8 by rfl)]
      simp
  rw [hcheck]
  show (let r0 := scanRow ((A ++ (recordBytes r ++ B)).drop A.length) [] [];
    if r0.1.length = schema.length then
      (Row.from_bytes schema r0.1).map (fun row => some (row, A.length, A.length + r0.2.1))
    else .error .assertionFailed) = _
  rw [List.drop_left' rfl, scanRow_record hclean B []]
  simp only [List.nil_append]
  rw [if_pos hlen]
  rcases hrow : Row.from_bytes schema r with e | row
  · rw [hrow] at hdec; simp [isOkE] at hdec
  · have : recRow schema r = row := by rw [recRow, hrow]
    rw [this]
    rfl

/-- A position where a scan may start: the beginning of the file or just
after a `ROWS_DELIMITER`. -/
def Boundary (A : List Nat) : Prop := A = [] ∨ ∃ C, A = C ++ ROWS_DELIMITER

theorem boundary_extend {A : List Nat} (r : List (List Nat)) (_ : Boundary A) :
    Boundary (A ++ recordBytes r) :=
  Or.inr ⟨A ++ fieldsBytes r, by rw [recordBytes, List.append_assoc]⟩

/-- The scan loop over a file of well-formed records, started at a record
boundary, returns exactly the remaining records with their byte spans. -/
theorem readRowsLoop_recs {schema : Schema} :
    ∀ (rs : List (List (List Nat))), wfRecords schema rs = true →
    ∀ (A : List Nat), Boundary A →
    ∀ fuel, rs.length < fuel →
      readRowsLoop schema (A ++ recsBytes rs) A.length fuel =
        .ok (triplesFrom schema A.length rs) := by
  intro rs
  induction rs with
  | nil =>
    intro _ A _ fuel hfuel
    rcases fuel with _ | fuel
    · omega
    · rw [readRowsLoop]
      simp [recsBytes, triplesFrom]
  | cons r rs ih =>
    intro hwf A hA fuel hfuel
    simp only [wfRecords, List.all_cons, Bool.and_eq_true] at hwf
    rcases fuel with _ | fuel
    · omega
    have hbytes : A ++ recsBytes (r :: rs) = A ++ (recordBytes r ++ recsBytes rs) := by
      simp [recsBytes]
    rw [hbytes, readRowsLoop]
    have hrl := recordBytes_len r
    have hpos : ¬(A.length = (A ++ (recordBytes r ++ recsBytes rs)).length) := by
      simp only [List.length_append]
      omega
    rw [if_neg hpos, read_row_at hwf.1 A (recsBytes rs) hA]
    show (readRowsLoop schema (A ++ (recordBytes r ++ recsBytes rs))
        (A.length + (recordBytes r).length) fuel).map _ = _
    have hshift : A ++ (recordBytes r ++ recsBytes rs) =
        (A ++ recordBytes r) ++ recsBytes rs := by rw [List.append_assoc]
    have hlen : A.length + (recordBytes r).length = (A ++ recordBytes r).length := by
      rw [List.length_append]
    rw [hshift, hlen,
      ih (by simpa [wfRecords] using hwf.2) (A ++ recordBytes r) (boundary_extend r hA)
        fuel (by simpa using hfuel)]
    simp only [triplesFrom, Except.map, List.length_append]

/-- A well-formed record's row holds an `Int` under the `id` key, and it is
the record's id. -/
theorem wfRecord_id {schema : Schema} {r : List (List Nat)}
    (h : wfRecord schema r = true) :
    (recRow schema r).lookup "id" = some (.vint (recId schema r)) := by
  unfold wfRecord at h
  simp only [Bool.and_eq_true] at h
  have hid := h.1.2
  rcases hl : (recRow schema r).lookup "id" with _ | v
  · rw [hl] at hid; simp at hid
  · cases v with
    | vint i => rw [recId, rowIdD, hl]
    | vstr s => rw [hl] at hid; simp at hid
    | vbool b => rw [hl] at hid; simp at hid
    | vdatetime t => rw [hl] at hid; simp at hid

/-- The result `find` produces on a record list: the first record whose id
matches, with its byte span. -/
def findFrom (schema : Schema) (id_ : Int) : Nat → List (List (List Nat)) →
    Option (Row × Nat × Nat)
  | _, [] => none
  | pos, r :: rs =>
    if recId schema r = id_ then some (recRow schema r, pos, pos + (recordBytes r).length)
    else findFrom schema id_ (pos + (recordBytes r).length) rs

/-- The `find` loop over a file of well-formed records agrees with
`findFrom`. -/
theorem findLoop_recs {schema : Schema} (id_ : Int) :
    ∀ (rs : List (List (List Nat))), wfRecords schema rs = true →
    ∀ (A : List Nat), Boundary A →
    ∀ fuel, rs.length < fuel →
      findLoop schema (A ++ recsBytes rs) id_ A.length fuel =
        .ok (findFrom schema id_ A.length rs) := by
  intro rs
  induction rs with
  | nil =>
    intro _ A _ fuel hfuel
    rcases fuel with _ | fuel
    · omega
    · rw [findLoop]
      simp [recsBytes, findFrom]
  | cons r rs ih =>
    intro hwf A hA fuel hfuel
    simp only [wfRecords, List.all_cons, Bool.and_eq_true] at hwf
    rcases fuel with _ | fuel
    · omega
    have hbytes : A ++ recsBytes (r :: rs) = A ++ (recordBytes r ++ recsBytes rs) := by
      simp [recsBytes]
    rw [hbytes, findLoop]
    have hrl := recordBytes_len r
    have hpos : ¬(A.length = (A ++ (recordBytes r ++ recsBytes rs)).length) := by
      simp only [List.length_append]
      omega
    rw [if_neg hpos, read_row_at hwf.1 A (recsBytes rs) hA]
    show ((rowIdInt (recRow schema r)).bind fun i => _) = _
    rw [rowIdInt, wfRecord_id hwf.1]
    show (if recId schema r = id_ then _ else
        findLoop schema (A ++ (recordBytes r ++ recsBytes rs)) id_
          (A.length + (recordBytes r).length) fuel) = _
    by_cases hmatch : recId schema r = id_
    · rw [if_pos hmatch, findFrom, if_pos hmatch]
    · rw [if_neg hmatch, findFrom, if_neg hmatch]
      have hshift : A ++ (recordBytes r ++ recsBytes rs) =
          (A ++ recordBytes r) ++ recsBytes rs := by rw [List.append_assoc]
      have hlen : A.length + (recordBytes r).length = (A ++ recordBytes r).length := by
        rw [List.length_append]
      rw [hshift, hlen,
        ih (by simpa [wfRecords] using hwf.2) (A ++ recordBytes r) (boundary_extend r hA)
          fuel (by simpa using hfuel), List.length_append]

/-- Erasing exactly one record's byte span collapses the file around it. -/
theorem erase_record (A rec B : List Nat) (hrec : rec ≠ []) :
    erase (A ++ (rec ++ B)) A.length (A.length + rec.length) = .ok (A ++ B) := by
  have hrpos : 0 < rec.length := List.length_pos.mpr hrec
  rw [erase, if_neg (by omega)]
  have htake : (A ++ (rec ++ B)).take A.length = A := List.take_left' rfl
  have hdrop : (A ++ (rec ++ B)).drop (A.length + rec.length) = B := by
    rw [← List.append_assoc]
    exact List.drop_left' (by rw [List.length_append])
  have hz : A.length - (A ++ (rec ++ B)).length = 0 := by
    simp only [List.length_append]
    omega
  rw [htake, hdrop, hz]
  simp

theorem lookup_cons_ne {j k : Int} (q : Nat) (t : List (Int × Nat)) (h : ¬j = k) :
    List.lookup j ((k, q) :: t) = List.lookup j t := by
  have hb : (j == k) = false := by simpa using h
  simp [List.lookup, hb]

theorem lookup_cons_self {j : Int} (q : Nat) (t : List (Int × Nat)) :
    List.lookup j ((j, q) :: t) = some q := by
  simp [List.lookup]

theorem lookup_none_of_not_mem {j : Int} {ps : List (Int × Nat)}
    (h : j ∉ ps.map Prod.fst) : ps.lookup j = none := by
  induction ps with
  | nil => rfl
  | cons e ps ih =>
    cases e with
    | mk k q =>
      simp only [List.map_cons, List.mem_cons] at h
      push_neg at h
      rw [lookup_cons_ne _ _ h.1]
      exact ih h.2

theorem mem_of_lookup_some {j : Int} {q : Nat} {ps : List (Int × Nat)}
    (h : ps.lookup j = some q) : j ∈ ps.map Prod.fst := by
  induction ps with
  | nil => simp [List.lookup] at h
  | cons e ps ih =>
    cases e with
    | mk k r =>
      by_cases hjk : j = k
      · simp [hjk]
      · rw [lookup_cons_ne _ _ hjk] at h
        simp only [List.map_cons, List.mem_cons]
        exact Or.inr (ih h)

theorem treeInsert_lookup (t : List (Int × Nat)) (i : Int) (p : Nat) (j : Int) :
    (treeInsert t i p).lookup j = if j = i then some p else t.lookup j := by
  induction t with
  | nil =>
    rw [treeInsert]
    by_cases h : j = i
    · subst h; rw [lookup_cons_self, if_pos rfl]
    · rw [lookup_cons_ne _ _ h, if_neg h]
  | cons e t ih =>
    cases e with
    | mk k q =>
      by_cases h1 : i < k
      · rw [treeInsert, if_pos h1]
        by_cases h : j = i
        · subst h; rw [lookup_cons_self, if_pos rfl]
        · rw [lookup_cons_ne _ _ h, if_neg h]
      · by_cases h2 : i = k
        · subst h2
          rw [treeInsert, if_neg h1, if_pos rfl]
          by_cases h : j = i
          · subst h; rw [lookup_cons_self, if_pos rfl]
          · rw [lookup_cons_ne _ _ h, if_neg h, lookup_cons_ne _ _ h]
        · rw [treeInsert, if_neg h1, if_neg h2]
          by_cases h : j = k
          · subst h
            have hne : ¬j = i := fun hx => h2 hx.symm
            rw [lookup_cons_self, if_neg hne, lookup_cons_self]
          · rw [lookup_cons_ne _ _ h, ih, lookup_cons_ne _ _ h]

/-- The tree `refresh_indexes` builds: successive `set` calls. -/
def foldInsert (t : List (Int × Nat)) : List (Int × Nat) → List (Int × Nat)
  | [] => t
  | (i, p) :: ps => foldInsert (treeInsert t i p) ps

theorem foldInsert_lookup_absent (ps : List (Int × Nat)) :
    ∀ (t : List (Int × Nat)) (j : Int), ps.lookup j = none →
      (foldInsert t ps).lookup j = t.lookup j := by
  induction ps with
  | nil => intro t j _; rfl
  | cons e ps ih =>
    intro t j h
    cases e with
    | mk i p =>
      by_cases hji : j = i
      · subst hji; rw [lookup_cons_self] at h; cases h
      · rw [lookup_cons_ne _ _ hji] at h
        rw [foldInsert, ih _ j h, treeInsert_lookup, if_neg hji]

theorem foldInsert_lookup_present (ps : List (Int × Nat)) :
    ∀ (t : List (Int × Nat)) (j : Int) (q : Nat), (ps.map Prod.fst).Nodup →
      ps.lookup j = some q → (foldInsert t ps).lookup j = some q := by
  induction ps with
  | nil => intro t j q _ h; cases h
  | cons e ps ih =>
    intro t j q hnodup h
    cases e with
    | mk i p =>
      simp only [List.map_cons, List.nodup_cons] at hnodup
      by_cases hji : j = i
      · subst hji
        rw [lookup_cons_self] at h
        injection h with h
        subst h
        have habs : ps.lookup j = none :=
          lookup_none_of_not_mem hnodup.1
        rw [foldInsert, foldInsert_lookup_absent ps _ j habs, treeInsert_lookup, if_pos rfl]
      · rw [lookup_cons_ne _ _ hji] at h
        rw [foldInsert]
        exact ih _ j q hnodup.2 h

/-! ## Id-range and refresh lemmas -/

theorem beVal_bound : ∀ (l : List Nat) (acc : Nat), l.all (fun b => b < 256) = true →
    l.foldl (fun a b => a * 256 + b) acc < (acc + 1) * 256 ^ l.length := by
  intro l
  induction l with
  | nil => intro acc _; simp
  | cons b l ih =>
    intro acc hall
    simp only [List.all_cons, Bool.and_eq_true, decide_eq_true_eq] at hall
    show (b :: l).foldl (fun a b => a * 256 + b) acc < _
    rw [List.foldl_cons]
    calc l.foldl (fun a b => a * 256 + b) (acc * 256 + b)
        < (acc * 256 + b + 1) * 256 ^ l.length := ih _ (by
          rw [List.all_eq_true] at *
          intro x hx
          exact hall.2 x hx)
      _ ≤ ((acc + 1) * 256) * 256 ^ l.length := by
          apply Nat.mul_le_mul_right
          omega
      _ = (acc + 1) * 256 ^ (b :: l).length := by
          rw [List.length_cons, pow_succ]
          ring

theorem beVal_lt {l : List Nat} (h : l.all (fun b => b < 256) = true) :
    beVal l < 256 ^ l.length := by
  have := beVal_bound l 0 h
  simpa [beVal] using this

/-- Only `intFromBytes` produces a `vint`, and from true bytes its value is
in the i32 range. -/
theorem decode_vint_range {dty : DTy} {raw : List Nat} {i : Int}
    (hb : raw.all (fun b => b < 256) = true)
    (h : DTy.from_bytes dty raw = .ok (.vint i)) :
    -(2 ^ 31) ≤ i ∧ i < 2 ^ 31 := by
  cases dty with
  | int =>
    rw [DTy.from_bytes, intFromBytes] at h
    by_cases hlen : raw.length = 4
    · rw [if_pos hlen] at h
      have hbv : beVal raw < 2 ^ 32 := by
        have := beVal_lt hb
        rw [hlen] at this
        calc beVal raw < 256 ^ 4 := this
          _ = 2 ^ 32 := by norm_num
      injection h with h
      injection h with h
      split_ifs at h <;> omega
    · rw [if_neg hlen] at h
      cases h
  | str =>
    rw [DTy.from_bytes, strFromBytes] at h
    rcases hdec : utf8Decode raw with _ | cps <;> rw [hdec] at h <;> cases h
  | bool =>
    rcases raw with _ | ⟨b, rest⟩
    · simp [DTy.from_bytes, boolFromBytes] at h
    · rcases rest with _ | ⟨c, rest2⟩
      · simp [DTy.from_bytes, boolFromBytes] at h
      · simp [DTy.from_bytes, boolFromBytes] at h
  | datetime =>
    rw [DTy.from_bytes, dtFromBytes] at h
    by_cases hlen : raw.length = 8
    · rw [if_pos hlen] at h
      injection h with h
      cases h
    · rw [if_neg hlen] at h
      cases h

/-- Every `vint` in a decoded row is in i32 range. -/
theorem from_bytes_vint_range :
    ∀ {schema : Schema} {raws : List (List Nat)} {row : Row},
      Row.from_bytes schema raws = .ok row →
      raws.all (fun f => f.all fun b => b < 256) = true →
      ∀ k i, (k, Value.vint i) ∈ row → -(2 ^ 31) ≤ i ∧ i < 2 ^ 31 := by
  intro schema
  induction schema with
  | nil =>
    intro raws row h _ k i hmem
    rw [Row.from_bytes] at h
    injection h with h
    subst h
    cases hmem
  | cons f schema1 ih =>
    intro raws row h hb k i hmem
    rcases raws with _ | ⟨raw, raws1⟩
    · have h0 : Row.from_bytes (f :: schema1) [] = .ok [] := rfl
      rw [h0] at h
      injection h with h
      subst h
      cases hmem
    · simp only [List.all_cons, Bool.and_eq_true] at hb
      rw [Row.from_bytes] at h
      rcases hv : f.datatype.from_bytes raw with e | v
      · rw [hv] at h; cases h
      · rw [hv] at h
        rcases hrest : Row.from_bytes schema1 raws1 with e | row1
        · rw [hrest] at h; cases h
        · rw [hrest] at h
          injection h with h
          subst h
          rcases List.mem_cons.mp hmem with hhead | htail
          · have hveq : v = Value.vint i := by
              have := congrArg Prod.snd hhead
              simpa using this.symm
            subst hveq
            exact decode_vint_range hb.1 hv
          · exact ih hrest hb.2 k i htail

/-- A successful lookup pairs the key with a member of the list. -/
theorem lookup_mem {α β : Type} [BEq α] [LawfulBEq α] {a : α} {b : β} :
    ∀ {l : List (α × β)}, l.lookup a = some b → (a, b) ∈ l := by
  intro l
  induction l with
  | nil => intro h; cases h
  | cons e l ih =>
    intro h
    cases e with
    | mk k v =>
      rcases hak : (a == k) with _ | _
      · rw [List.lookup_cons, hak] at h
        exact List.mem_cons_of_mem _ (ih h)
      · rw [List.lookup_cons, hak] at h
        injection h with h
        subst h
        have : a = k := by simpa using hak
        subst this
        exact List.mem_cons_self _ _

/-- A well-formed record of true bytes has an i32 id. -/
theorem wfRecord_id_range {schema : Schema} {r : List (List Nat)}
    (h : wfRecord schema r = true) :
    -(2 ^ 31) ≤ recId schema r ∧ recId schema r < 2 ^ 31 := by
  have hid := wfRecord_id h
  unfold wfRecord at h
  simp only [Bool.and_eq_true, decide_eq_true_eq] at h
  obtain ⟨⟨⟨⟨hclean, hlen⟩, hdec⟩, _⟩, hbytes⟩ := h
  rcases hrow : Row.from_bytes schema r with e | row
  · rw [hrow] at hdec; simp [isOkE] at hdec
  · have hrec : recRow schema r = row := by rw [recRow, hrow]
    rw [hrec] at hid
    exact from_bytes_vint_range hrow hbytes "id" _ (lookup_mem hid)

theorem rowIdInt_of_lookup {row : Row} {i : Int} (h : row.lookup "id" = some (.vint i)) :
    rowIdInt row = .ok i := by
  rw [rowIdInt, h]

theorem refreshFold_ok :
    ∀ (ts : List (Row × Nat × Nat)) (idx : TableIndex),
      idx.tree.all idxEntryOk = true →
      (∀ x ∈ ts, x.1.lookup "id" = some (.vint (rowIdD x.1)) ∧
        idxEntryOk (rowIdD x.1, x.2.1) = true) →
      ∃ idx1, refreshFold idx ts = .ok idx1 ∧
        idx1.tree = foldInsert idx.tree (ts.map fun x => (rowIdD x.1, x.2.1)) ∧
        idx1.tree.all idxEntryOk = true := by
  intro ts
  induction ts with
  | nil => intro idx hok _; exact ⟨idx, rfl, rfl, hok⟩
  | cons x ts ih =>
    intro idx hok hcond
    obtain ⟨hx1, hx2⟩ := hcond x (List.mem_cons_self _ _)
    obtain ⟨row, b, e⟩ := x
    have hok1 := treeInsert_all_ok hok hx2
    obtain ⟨idx1, hrf, htree, hok2⟩ :=
      ih ⟨treeInsert idx.tree (rowIdD row) b, dumpBytesP (treeInsert idx.tree (rowIdD row) b)⟩
        hok1 (fun y hy => hcond y (List.mem_cons_of_mem _ hy))
    refine ⟨idx1, ?_, ?_, hok2⟩
    · rw [refreshFold, rowIdInt_of_lookup hx1]
      show (TableIndex.set idx (rowIdD row) b).bind _ = _
      rw [TableIndex.set, TableIndex.dump, dumpBytes_ok hok1]
      exact hrf
    · rw [htree]
      rfl

theorem findFrom_none {schema : Schema} (id_ : Int) :
    ∀ (rs : List (List (List Nat))) (pos : Nat), id_ ∉ rs.map (recId schema) →
      findFrom schema id_ pos rs = none := by
  intro rs
  induction rs with
  | nil => intro pos _; rfl
  | cons r rs ih =>
    intro pos h
    simp only [List.map_cons, List.mem_cons] at h
    push_neg at h
    rw [findFrom, if_neg (fun hx => h.1 hx.symm)]
    exact ih _ h.2

theorem findFrom_found {schema : Schema} (id_ : Int) :
    ∀ (rs : List (List (List Nat))) (pos : Nat), id_ ∈ rs.map (recId schema) →
      ∃ pre r post, rs = pre ++ r :: post ∧ recId schema r = id_ ∧
        findFrom schema id_ pos rs =
          some (recRow schema r, pos + (recsBytes pre).length,
            pos + (recsBytes pre).length + (recordBytes r).length) := by
  intro rs
  induction rs with
  | nil => intro pos h; simp at h
  | cons r rs ih =>
    intro pos h
    by_cases hr : recId schema r = id_
    · refine ⟨[], r, rs, rfl, hr, ?_⟩
      rw [findFrom, if_pos hr]
      simp [recsBytes]
    · have h2 : id_ ∈ rs.map (recId schema) := by
        simp only [List.map_cons, List.mem_cons] at h
        rcases h with h | h
        · exact absurd h.symm hr
        · exact h
      obtain ⟨pre, r2, post, hsplit, hid2, hfind⟩ := ih (pos + (recordBytes r).length) h2
      refine ⟨r :: pre, r2, post, by rw [hsplit]; rfl, hid2, ?_⟩
      rw [findFrom, if_neg hr, hfind]
      have hcons : recsBytes (r :: pre) = recordBytes r ++ recsBytes pre := by
        simp [recsBytes]
      rw [hcons, List.length_append]
      simp only [Nat.add_assoc]

theorem recsBytes_cons (r : List (List Nat)) (rs : List (List (List Nat))) :
    recsBytes (r :: rs) = recordBytes r ++ recsBytes rs := by
  simp [recsBytes]

theorem recsBytes_append (xs ys : List (List (List Nat))) :
    recsBytes (xs ++ ys) = recsBytes xs ++ recsBytes ys := by
  simp [recsBytes]

theorem rs_length_le (rs : List (List (List Nat))) :
    rs.length ≤ (recsBytes rs).length := by
  induction rs with
  | nil => simp [recsBytes]
  | cons r rs ih =>
    rw [recsBytes_cons, List.length_append, List.length_cons]
    have := recordBytes_len r
    omega

theorem boundary_recs (rs : List (List (List Nat))) : Boundary (recsBytes rs) := by
  rcases rs with _ | ⟨r, rs⟩
  · exact Or.inl rfl
  · exact Or.inr (recsBytes_ends (by simp))

theorem wfRecords_sublist {schema : Schema} {rs1 rs2 : List (List (List Nat))}
    (hs : rs1.Sublist rs2) (h : wfRecords schema rs2 = true) :
    wfRecords schema rs1 = true := by
  rw [wfRecords, List.all_eq_true] at h ⊢
  intro r hr
  exact h r (List.Sublist.mem hr hs)

theorem triples_keys {schema : Schema} :
    ∀ (rs : List (List (List Nat))) (pos : Nat),
      ((triplesFrom schema pos rs).map fun x => (rowIdD x.1, x.2.1)).map Prod.fst =
        rs.map (recId schema) := by
  intro rs
  induction rs with
  | nil => intro pos; rfl
  | cons r rs ih => intro pos; simp [triplesFrom, recId, ih]

theorem triples_cond {schema : Schema} :
    ∀ (rs : List (List (List Nat))) (pos : Nat), wfRecords schema rs = true →
      pos + (recsBytes rs).length < 2 ^ 64 →
      ∀ x ∈ triplesFrom schema pos rs,
        x.1.lookup "id" = some (.vint (rowIdD x.1)) ∧
          idxEntryOk (rowIdD x.1, x.2.1) = true := by
  intro rs
  induction rs with
  | nil => intro pos _ _ x hx; cases hx
  | cons r rs ih =>
    intro pos hwf hbound x hx
    simp only [wfRecords, List.all_cons, Bool.and_eq_true] at hwf
    have hlenc : (recsBytes (r :: rs)).length =
        (recordBytes r).length + (recsBytes rs).length := by
      rw [recsBytes_cons, List.length_append]
    rcases List.mem_cons.mp hx with rfl | htail
    · constructor
      · exact wfRecord_id hwf.1
      · have hrange := wfRecord_id_range hwf.1
        unfold idxEntryOk
        simp only [Bool.and_eq_true, decide_eq_true_eq]
        exact ⟨hrange, by omega⟩
    · exact ih (pos + (recordBytes r).length) (by simpa [wfRecords] using hwf.2)
        (by omega) x htail

theorem triples_lookup {schema : Schema} :
    ∀ (rs : List (List (List Nat))) (pos : Nat) (j : Int),
      j ∈ rs.map (recId schema) →
      ∃ pre r post, rs = pre ++ r :: post ∧ recId schema r = j ∧
        ((triplesFrom schema pos rs).map fun x => (rowIdD x.1, x.2.1)).lookup j =
          some (pos + (recsBytes pre).length) := by
  intro rs
  induction rs with
  | nil => intro pos j h; simp at h
  | cons r rs ih =>
    intro pos j h
    by_cases hr : recId schema r = j
    · refine ⟨[], r, rs, rfl, hr, ?_⟩
      have hkey : rowIdD (recRow schema r) = j := hr
      simp only [triplesFrom, List.map_cons]
      rw [show (recsBytes ([] : List (List (List Nat)))).length = 0 from rfl]
      rw [hkey, lookup_cons_self]
      simp
    · have h2 : j ∈ rs.map (recId schema) := by
        simp only [List.map_cons, List.mem_cons] at h
        rcases h with h | h
        · exact absurd h.symm hr
        · exact h
      obtain ⟨pre, r2, post, hsplit, hid2, hfind⟩ := ih (pos + (recordBytes r).length) j h2
      refine ⟨r :: pre, r2, post, by rw [hsplit]; rfl, hid2, ?_⟩
      simp only [triplesFrom, List.map_cons]
      have hne : ¬(j = rowIdD (recRow schema r)) := fun hx => hr hx.symm
      rw [lookup_cons_ne _ _ hne, hfind, recsBytes_cons, List.length_append]
      simp only [Nat.add_assoc]

/-- What `Table.delete` does on a well-formed table state: nothing when the
id is absent; when present, it erases exactly the first matching record's
bytes and rebuilds the index from the remaining records. -/
theorem delete_spec {schema : Schema} {recs : List (List (List Nat))} (idx : TableIndex)
    (hwf : wfRecords schema recs = true)
    (hlen : (recsBytes recs).length < 2 ^ 64)
    (id_ : Int) :
    (id_ ∉ recs.map (recId schema) →
      Table.delete schema ⟨recsBytes recs, idx⟩ id_ = .ok (⟨recsBytes recs, idx⟩, 0)) ∧
    (id_ ∈ recs.map (recId schema) →
      ∃ pre r post idx1, recs = pre ++ r :: post ∧ recId schema r = id_ ∧
        Table.delete schema ⟨recsBytes recs, idx⟩ id_ =
          .ok (⟨recsBytes (pre ++ post), idx1⟩, 1) ∧
        idx1.tree = foldInsert []
          ((triplesFrom schema 0 (pre ++ post)).map fun x => (rowIdD x.1, x.2.1)) ∧
        idx1.tree.all idxEntryOk = true) := by
  have hfuel : recs.length < (recsBytes recs).length + 1 :=
    Nat.lt_succ_of_le (rs_length_le recs)
  have hfind0 : Table.find schema ⟨recsBytes recs, idx⟩ id_ =
      .ok (findFrom schema id_ 0 recs) := by
    show findLoop schema (recsBytes recs) id_ 0 ((recsBytes recs).length + 1) = _
    have := findLoop_recs id_ recs hwf [] (Or.inl rfl) ((recsBytes recs).length + 1) hfuel
    simpa using this
  constructor
  · intro habs
    rw [Table.delete, hfind0, findFrom_none id_ recs 0 habs]
    rfl
  · intro hpres
    obtain ⟨pre, r, post, hsplit, hid, hfind⟩ := findFrom_found id_ recs 0 hpres
    rw [Table.delete, hfind0, hfind]
    have hsplitb : recsBytes recs =
        recsBytes pre ++ (recordBytes r ++ recsBytes post) := by
      rw [hsplit, recsBytes_append, recsBytes_cons]
    have hrne : recordBytes r ≠ [] := by
      intro hx
      have := recordBytes_len r
      rw [hx] at this
      simp at this
    have herase : erase (recsBytes recs) (0 + (recsBytes pre).length)
        (0 + (recsBytes pre).length + (recordBytes r).length) =
        .ok (recsBytes (pre ++ post)) := by
      rw [hsplitb, recsBytes_append]
      simpa using erase_record (recsBytes pre) (recordBytes r) (recsBytes post) hrne
    have hwf2 : wfRecords schema (pre ++ post) = true := by
      refine wfRecords_sublist ?_ hwf
      rw [hsplit]
      exact List.Sublist.append_left (List.sublist_cons_self r post) pre
    have hlen2 : (recsBytes (pre ++ post)).length ≤ (recsBytes recs).length := by
      rw [hsplitb, recsBytes_append]
      simp only [List.length_append]
      omega
    have hscan : readRowsLoop schema (recsBytes (pre ++ post)) 0
        ((recsBytes (pre ++ post)).length + 1) =
        .ok (triplesFrom schema 0 (pre ++ post)) := by
      have := readRowsLoop_recs (pre ++ post) hwf2 [] (Or.inl rfl)
        ((recsBytes (pre ++ post)).length + 1)
        (Nat.lt_succ_of_le (rs_length_le (pre ++ post)))
      simpa using this
    obtain ⟨idx1, hrf, htree, hok⟩ := refreshFold_ok (triplesFrom schema 0 (pre ++ post))
      ⟨[], []⟩ (by rfl)
      (triples_cond (pre ++ post) 0 hwf2 (by omega))
    refine ⟨pre, r, post, idx1, hsplit, hid, ?_, htree, hok⟩
    have hclear : TableIndex.clear idx = .ok ⟨[], []⟩ := rfl
    simp only [Except.bind]
    rw [herase]
    simp only [Except.bind, Table.refresh_indexes]
    rw [hclear]
    simp only [Except.bind]
    rw [hscan]
    simp only [Except.bind]
    rw [hrf]
    rfl

/-! ## Encode-side lemmas (for the write/read round trip) -/

theorem lookup_cons_ne_g {α β : Type} [BEq α] [LawfulBEq α] {a k : α} (v : β)
    (t : List (α × β)) (h : ¬a = k) : List.lookup a ((k, v) :: t) = List.lookup a t := by
  have hb : (a == k) = false := by simpa using h
  rw [List.lookup_cons, hb]

theorem lookup_cons_self_g {α β : Type} [BEq α] [LawfulBEq α] {a : α} (v : β)
    (t : List (α × β)) : List.lookup a ((a, v) :: t) = some v := by
  rw [List.lookup_cons]
  simp

theorem to_bytes_ok {v : Value} (h : representable v = true) :
    v.to_bytes = .ok (encValue v) := by
  rcases hx : v.to_bytes with e | bs
  · exfalso
    cases v with
    | vint i =>
      simp only [representable, decide_eq_true_eq] at h
      rw [Value.to_bytes, intToBytes, if_pos h] at hx
      cases hx
    | vstr s =>
      have hs : s.all validCp = true := h
      rw [Value.to_bytes, strToBytes, if_pos hs] at hx
      cases hx
    | vbool b => rw [Value.to_bytes] at hx; cases hx
    | vdatetime t =>
      simp only [representable, decide_eq_true_eq] at h
      rw [Value.to_bytes, dtToBytes, if_pos h] at hx
      cases hx
  · rw [encValue, hx]

theorem decode_encValue {v : Value} (h : representable v = true) :
    v.tag.from_bytes (encValue v) = .ok v := by
  have hrt := value_roundtrip v h
  rw [to_bytes_ok h] at hrt
  exact hrt

theorem encodeRowE_ok {row : Row} (h : rowRepresentable row = true) :
    encodeRowE row = .ok (encRow row) := by
  induction row with
  | nil => rfl
  | cons kv row ih =>
    simp only [rowRepresentable, List.all_cons, Bool.and_eq_true] at h
    rw [encodeRowE, to_bytes_ok h.1, ih h.2]
    rfl

theorem write_row_ok {file : List Nat} {row : Row} (h : rowRepresentable row = true) :
    write_row file row =
      .ok (file ++ recordBytes (encRow row), file.length,
        file.length + (recordBytes (encRow row)).length) := by
  rw [write_row, encodeRowE_ok h]
  rfl

/-- Decoding the encoded fields of a row that fits the schema recovers the
row. -/
theorem from_bytes_encRow :
    ∀ {schema : Schema} {row : Row}, rowFitsSchema schema row = true →
      rowRepresentable row = true →
      Row.from_bytes schema (encRow row) = .ok row := by
  intro schema
  induction schema with
  | nil =>
    intro row hfit _
    unfold rowFitsSchema at hfit
    simp only [Bool.and_eq_true, decide_eq_true_eq] at hfit
    have : row = [] := List.eq_nil_of_length_eq_zero (by simpa using hfit.1)
    subst this
    rfl
  | cons f schema1 ih =>
    intro row hfit hrep
    unfold rowFitsSchema at hfit
    simp only [Bool.and_eq_true, decide_eq_true_eq] at hfit
    rcases row with _ | ⟨kv, row1⟩
    · simp at hfit
    · simp only [List.zip_cons_cons, List.all_cons, Bool.and_eq_true,
        decide_eq_true_eq] at hfit
      simp only [rowRepresentable, List.all_cons, Bool.and_eq_true] at hrep
      obtain ⟨hlen, ⟨hname, htag⟩, hrest⟩ := hfit
      show Row.from_bytes (f :: schema1) (encValue kv.2 :: encRow row1) = _
      rw [Row.from_bytes, htag, decode_encValue hrep.1]
      have ihr : Row.from_bytes schema1 (encRow row1) = .ok row1 := by
        apply ih _ hrep.2
        unfold rowFitsSchema
        simp only [Bool.and_eq_true, decide_eq_true_eq]
        exact ⟨by simpa using hlen, hrest⟩
      rw [ihr]
      show Except.ok ((f.name, kv.2) :: row1) = Except.ok (kv :: row1)
      rw [hname]

theorem beBytes_bytes (w n : Nat) : (beBytes w n).all (fun b => b < 256) = true := by
  induction w generalizing n with
  | zero => rfl
  | succ w ih =>
    rw [beBytes, List.all_append]
    simp only [Bool.and_eq_true]
    refine ⟨ih _, by simp; omega⟩

theorem utf8EncodeChar_bytes {c : Nat} (h : c < 0x110000) :
    (utf8EncodeChar c).all (fun b => b < 256) = true := by
  unfold utf8EncodeChar
  split_ifs with h1 h2 h3 <;> simp <;> omega

theorem encValue_bytes {v : Value} (h : representable v = true) :
    (encValue v).all (fun b => b < 256) = true := by
  cases v with
  | vint i =>
    have := to_bytes_ok h
    simp only [representable, decide_eq_true_eq] at h
    rw [Value.to_bytes, intToBytes, if_pos h] at this
    injection this with this
    rw [← this]
    exact beBytes_bytes _ _
  | vstr s =>
    have hb := to_bytes_ok h
    have hs : s.all validCp = true := h
    rw [Value.to_bytes, strToBytes, if_pos hs] at hb
    injection hb with hb
    rw [← hb, List.all_eq_true]
    intro b hbmem
    rw [List.mem_flatten] at hbmem
    obtain ⟨l, hl, hbl⟩ := hbmem
    rw [List.mem_map] at hl
    obtain ⟨c, hc, rfl⟩ := hl
    have hcp : validCp c = true := by
      rw [List.all_eq_true] at hs
      exact hs c hc
    have hclt : c < 0x110000 := by
      unfold validCp at hcp
      simp only [Bool.and_eq_true, decide_eq_true_eq] at hcp
      exact hcp.1
    have := utf8EncodeChar_bytes hclt
    rw [List.all_eq_true] at this
    exact this b hbl
  | vbool b =>
    have hb := to_bytes_ok h
    rw [Value.to_bytes] at hb
    injection hb with hb
    rw [← hb]
    cases b <;> rfl
  | vdatetime t =>
    have hb := to_bytes_ok h
    simp only [representable, decide_eq_true_eq] at h
    rw [Value.to_bytes, dtToBytes, if_pos h] at hb
    injection hb with hb
    rw [← hb]
    exact beBytes_bytes _ _

theorem encRow_bytes {row : Row} (h : rowRepresentable row = true) :
    (encRow row).all (fun f => f.all fun b => b < 256) = true := by
  rw [encRow, List.all_eq_true]
  intro f hf
  rw [List.mem_map] at hf
  obtain ⟨kv, hkv, rfl⟩ := hf
  rw [rowRepresentable, List.all_eq_true] at h
  exact encValue_bytes (h kv hkv)

/-- A key present among an association list's keys has a value. -/
theorem lookup_isSome_of_mem {α β : Type} [BEq α] [LawfulBEq α] {a : α} :
    ∀ {l : List (α × β)}, a ∈ l.map Prod.fst → (l.lookup a).isSome = true := by
  intro l
  induction l with
  | nil => intro h; cases h
  | cons e l ih =>
    intro h
    cases e with
    | mk k v =>
      by_cases hak : a = k
      · subst hak
        rw [List.lookup_cons]
        simp
      · simp only [List.map_cons, List.mem_cons] at h
        rcases h with h | h
        · exact absurd h hak
        · rw [List.lookup_cons]
          have : (a == k) = false := by simpa using hak
          rw [this]
          exact ih h

/-- If the schema has an `id : Int` field with unique names, a row fitting
the schema holds an `Int` under the `id` key. -/
theorem row_id_of_fits :
    ∀ {schema : Schema} {row : Row},
      schema.any (fun f => f.name = "id" && f.datatype = .int) = true →
      (schema.map Field.name).Nodup →
      rowFitsSchema schema row = true →
      ∃ i, row.lookup "id" = some (.vint i) := by
  intro schema
  induction schema with
  | nil => intro row h _ _; simp at h
  | cons f schema1 ih =>
    intro row hany hnodup hfit
    unfold rowFitsSchema at hfit
    simp only [Bool.and_eq_true, decide_eq_true_eq] at hfit
    rcases row with _ | ⟨kv, row1⟩
    · simp at hfit
    · simp only [List.zip_cons_cons, List.all_cons, Bool.and_eq_true,
        decide_eq_true_eq] at hfit
      obtain ⟨hlen, ⟨hname, htag⟩, hrest⟩ := hfit
      simp only [List.map_cons, List.nodup_cons] at hnodup
      simp only [List.any_cons, Bool.or_eq_true, Bool.and_eq_true,
        decide_eq_true_eq] at hany
      by_cases hfid : f.name = "id"
      · have hdty : f.datatype = DTy.int := by
          rcases hany with h | h
          · exact h.2
          · exfalso
            rw [List.any_eq_true] at h
            obtain ⟨g, hg, hgid⟩ := h
            simp only [Bool.and_eq_true, decide_eq_true_eq] at hgid
            exact hnodup.1 (by
              rw [← hfid] at hgid
              rw [List.mem_map]
              exact ⟨g, hg, hgid.1⟩)
        rw [hdty] at htag
        have hv : ∃ i, kv.2 = Value.vint i := by
          cases hkv2 : kv.2 with
          | vint i => exact ⟨i, rfl⟩
          | vstr s => rw [hkv2] at htag; cases htag
          | vbool b => rw [hkv2] at htag; cases htag
          | vdatetime t => rw [hkv2] at htag; cases htag
        obtain ⟨i, hv⟩ := hv
        refine ⟨i, ?_⟩
        have hk : kv.1 = "id" := by rw [← hname, hfid]
        rcases kv with ⟨k1, v1⟩
        simp only at hk hv
        subst hk
        subst hv
        exact lookup_cons_self_g _ _
      · have hany1 : schema1.any (fun f => f.name = "id" && f.datatype = .int) = true := by
          rcases hany with h | h
          · exact absurd h.1 hfid
          · exact h
        obtain ⟨i, hi⟩ := ih hany1 hnodup.2 (by
          unfold rowFitsSchema
          simp only [Bool.and_eq_true, decide_eq_true_eq]
          exact ⟨by simpa using hlen, hrest⟩)
        refine ⟨i, ?_⟩
        rcases kv with ⟨k1, v1⟩
        have hk : ¬("id" = k1) := by
          intro hx
          exact hfid (by rw [hname, ← hx])
        rw [lookup_cons_ne_g _ _ hk]
        exact hi

theorem writeRows_ok :
    ∀ {rows : List Row} {file : List Nat},
      rows.all rowRepresentable = true →
      writeRows file rows = .ok (file ++ recsBytes (rows.map encRow)) := by
  intro rows
  induction rows with
  | nil => intro file _; simp [writeRows, recsBytes]
  | cons r rows ih =>
    intro file h
    simp only [List.all_cons, Bool.and_eq_true] at h
    rw [writeRows, write_row_ok h.1]
    show writeRows (file ++ recordBytes (encRow r)) rows = _
    rw [ih h.2, List.map_cons, recsBytes_cons, List.append_assoc]

theorem recRow_encRow {schema : Schema} {row : Row}
    (hfit : rowFitsSchema schema row = true) (hrep : rowRepresentable row = true) :
    recRow schema (encRow row) = row := by
  rw [recRow, from_bytes_encRow hfit hrep]

/-- A row fitting a valid schema (unique names, `id : Int` present) encodes
to a well-formed record whenever its framing is clean. -/
theorem wfRecord_encRow {schema : Schema} {row : Row}
    (hany : schema.any (fun f => f.name = "id" && f.datatype = .int) = true)
    (hnames : (schema.map Field.name).Nodup)
    (hfit : rowFitsSchema schema row = true)
    (hrep : rowRepresentable row = true)
    (hclean : cleanFields (encRow row) = true) :
    wfRecord schema (encRow row) = true := by
  unfold wfRecord
  simp only [Bool.and_eq_true, decide_eq_true_eq]
  have hlen : (encRow row).length = schema.length := by
    unfold rowFitsSchema at hfit
    simp only [Bool.and_eq_true, decide_eq_true_eq] at hfit
    rw [encRow, List.length_map, hfit.1]
  obtain ⟨i, hi⟩ := row_id_of_fits hany hnames hfit
  refine ⟨⟨⟨⟨hclean, hlen⟩, ?_⟩, ?_⟩, encRow_bytes hrep⟩
  · rw [from_bytes_encRow hfit hrep]
    rfl
  · rw [recRow_encRow hfit hrep, hi]

theorem triples_rows {schema : Schema} :
    ∀ (rs : List (List (List Nat))) (pos : Nat),
      (triplesFrom schema pos rs).map (fun x => x.1) = rs.map (recRow schema) := by
  intro rs
  induction rs with
  | nil => intro pos; rfl
  | cons r rs ih => intro pos; simp [triplesFrom, ih]

/-! ## Select lemmas -/

/-- The acceptance test as a pure Boolean: every filter pair equals the
row's value at that field. -/
def rowMatchesB (filt : List (String × Value)) (row : Row) : Bool :=
  filt.all fun kv => row.lookup kv.1 == some kv.2

theorem rowMatches_ok {row : Row} :
    ∀ {filt : List (String × Value)},
      (∀ kv ∈ filt, (row.lookup kv.1).isSome = true) →
      rowMatches filt row = .ok (rowMatchesB filt row) := by
  intro filt
  induction filt with
  | nil => intro _; rfl
  | cons kv filt ih =>
    intro h
    obtain ⟨k, v⟩ := kv
    have hks := h (k, v) (List.mem_cons_self _ _)
    rcases hlk : row.lookup k with _ | w
    · rw [hlk] at hks; cases hks
    · rw [rowMatches, hlk]
      show (if w = v then rowMatches filt row else Except.ok false) = _
      by_cases hw : w = v
      · subst hw
        rw [if_pos rfl, ih (fun kv hkv => h kv (List.mem_cons_of_mem _ hkv))]
        have : rowMatchesB ((k, w) :: filt) row = rowMatchesB filt row := by
          unfold rowMatchesB
          simp only [List.all_cons, hlk]
          simp
        rw [this]
      · rw [if_neg hw]
        have : rowMatchesB ((k, v) :: filt) row = false := by
          unfold rowMatchesB
          simp only [List.all_cons, hlk, Bool.and_eq_false_iff]
          left
          simpa using hw
        rw [this]

theorem filterRows_ok {filt : List (String × Value)} :
    ∀ {ts : List (Row × Nat × Nat)},
      (∀ x ∈ ts, ∀ kv ∈ filt, (x.1.lookup kv.1).isSome = true) →
      filterRows filt ts = .ok ((ts.map (fun x => x.1)).filter (rowMatchesB filt)) := by
  intro ts
  induction ts with
  | nil => intro _; rfl
  | cons x ts ih =>
    intro h
    obtain ⟨row, b, e⟩ := x
    rw [filterRows, rowMatches_ok (h (row, b, e) (List.mem_cons_self _ _)),
      ih (fun y hy => h y (List.mem_cons_of_mem _ hy))]
    show Except.ok _ = _
    simp only [List.map_cons, List.filter_cons]

/-- The names of a decoded row are the schema's field names. -/
theorem from_bytes_names :
    ∀ {schema : Schema} {raws : List (List Nat)} {row : Row},
      Row.from_bytes schema raws = .ok row → raws.length = schema.length →
      row.map Prod.fst = schema.map Field.name := by
  intro schema
  induction schema with
  | nil =>
    intro raws row h _
    rw [Row.from_bytes] at h
    injection h with h
    subst h
    rfl
  | cons f schema1 ih =>
    intro raws row h hlen
    rcases raws with _ | ⟨raw, raws1⟩
    · simp at hlen
    · rw [Row.from_bytes] at h
      rcases hv : f.datatype.from_bytes raw with e | v
      · rw [hv] at h; cases h
      · rw [hv] at h
        rcases hrest : Row.from_bytes schema1 raws1 with e | row1
        · rw [hrest] at h; cases h
        · rw [hrest] at h
          injection h with h
          subst h
          simp only [List.map_cons]
          rw [ih hrest (by simpa using hlen)]

/-! ## Create lemmas -/

theorem set_ok_tree {s : TableIndex} {i : Int} {p : Nat} {s1 : TableIndex}
    (h : s.set i p = .ok s1) : s1.tree = treeInsert s.tree i p := by
  rw [TableIndex.set, TableIndex.dump] at h
  rcases hd : dumpBytes (treeInsert s.tree i p) with e | bs
  · rw [hd] at h; cases h
  · rw [hd] at h
    injection h with h
    rw [← h]

theorem write_row_pos {file : List Nat} {row : Row} {fbe : List Nat × Nat × Nat}
    (h : write_row file row = .ok fbe) : fbe.2.1 = file.length := by
  rw [write_row] at h
  rcases he : encodeRowE row with e | fs
  · rw [he] at h; cases h
  · rw [he] at h
    injection h with h
    rw [← h]

theorem create_ok {schema : Schema} {t : Table} {row : Row} {t1 : Table} {row1 : Row}
    {k : Int} (h : Table.create schema t row = .ok (t1, row1, k)) :
    k = t.index.get_next_id ∧ row1 = dictSet row "id" (.vint t.index.get_next_id) ∧
      t1.index.tree = treeInsert t.index.tree t.index.get_next_id t.file.length := by
  rw [Table.create] at h
  rcases hw : write_row t.file (dictSet row "id" (.vint t.index.get_next_id)) with e | fbe
  · rw [hw] at h; cases h
  · rw [hw] at h
    simp only [Except.bind] at h
    rcases hs : t.index.set t.index.get_next_id fbe.2.1 with e | index1
    · rw [hs] at h; cases h
    · rw [hs] at h
      simp only [Except.map] at h
      injection h with h
      rw [Prod.mk.injEq, Prod.mk.injEq] at h
      obtain ⟨ht, hrow, hk⟩ := h
      refine ⟨hk.symm, hrow.symm, ?_⟩
      rw [← ht]
      show index1.tree = _
      rw [set_ok_tree hs, write_row_pos hw]

/-- Successive `create` calls, collecting the assigned ids. -/
def createSeq (schema : Schema) (t : Table) : List Row → Except DbError (Table × List Int)
  | [] => .ok (t, [])
  | r :: rows =>
    (Table.create schema t r).bind fun x =>
      (createSeq schema x.1 rows).map fun y => (y.1, x.2.2 :: y.2)

theorem foldl_max_eq :
    ∀ (as : List Int) (a m : Int), (a = m ∨ m ∈ as) → a ≤ m → (∀ x ∈ as, x ≤ m) →
      as.foldl max a = m := by
  intro as
  induction as with
  | nil =>
    intro a m h _ _
    rcases h with rfl | h
    · rfl
    · cases h
  | cons b as ih =>
    intro a m h ha hall
    rw [List.foldl_cons]
    have hb : b ≤ m := hall b (by simp)
    rcases h with rfl | h
    · exact ih _ _ (Or.inl (max_eq_left hb)) (le_of_eq (max_eq_left hb))
        (fun x hx => hall x (List.mem_cons_of_mem _ hx))
    · rcases List.mem_cons.mp h with rfl | hmas
      · exact ih _ _ (Or.inl (max_eq_right ha)) (le_of_eq (max_eq_right ha))
          (fun x hx => hall x (List.mem_cons_of_mem _ hx))
      · exact ih _ _ (Or.inr hmas) (max_le ha hb)
          (fun x hx => hall x (List.mem_cons_of_mem _ hx))

theorem max?_eq_of {l : List Int} {m : Int} (hmem : m ∈ l) (hle : ∀ x ∈ l, x ≤ m) :
    l.max? = some m := by
  rcases l with _ | ⟨a, as⟩
  · cases hmem
  · show some (as.foldl max a) = some m
    congr 1
    rcases List.mem_cons.mp hmem with rfl | h
    · exact foldl_max_eq as m m (Or.inl rfl) le_rfl
        (fun x hx => hle x (List.mem_cons_of_mem _ hx))
    · exact foldl_max_eq as a m (Or.inr h) (hle a (by simp))
        (fun x hx => hle x (List.mem_cons_of_mem _ hx))

theorem createSeq_ids {schema : Schema} :
    ∀ (rows : List Row) (t : Table) (n : Int),
      (∀ z ∈ t.index.tree.map Prod.fst, z < n) →
      t.index.get_next_id = n →
      ∀ t1 ids, createSeq schema t rows = .ok (t1, ids) →
        ids = (List.range rows.length).map (fun (j : Nat) => n + (j : Int)) := by
  intro rows
  induction rows with
  | nil =>
    intro t n _ _ t1 ids h
    rw [createSeq] at h
    injection h with h
    rw [Prod.mk.injEq] at h
    rw [← h.2]
    rfl
  | cons r rows ih =>
    intro t n hlt hnext t1 ids h
    rw [createSeq] at h
    rcases hc : Table.create schema t r with e | x
    · rw [hc] at h; cases h
    · rw [hc] at h
      simp only [Except.bind] at h
      rcases hcs : createSeq schema x.1 rows with e | y
      · rw [hcs] at h; cases h
      · rw [hcs] at h
        simp only [Except.map] at h
        injection h with h
        have hids : x.2.2 :: y.2 = ids := congrArg Prod.snd h
        obtain ⟨tx, rowx, kx⟩ := x
        have hco := create_ok hc
        have hkeys : ∀ z ∈ tx.index.tree.map Prod.fst, z < n + 1 := by
          intro z hz
          rw [hco.2.2] at hz
          rw [List.mem_map] at hz
          obtain ⟨zq, hzq, rfl⟩ := hz
          rcases treeInsert_mem hzq with hmem | rfl
          · have := hlt zq.1 (List.mem_map.mpr ⟨zq, hmem, rfl⟩)
            omega
          · rw [hnext]
            omega
        have hnext1 : tx.index.get_next_id = n + 1 := by
          have hsome : (tx.index.tree.map Prod.fst).max? = some n := by
            apply max?_eq_of
            · rw [hco.2.2, hnext]
              have : (treeInsert t.index.tree n t.file.length).lookup n = some t.file.length := by
                rw [treeInsert_lookup, if_pos rfl]
              exact mem_of_lookup_some this
            · intro z hz
              have := hkeys z hz
              omega
          rw [TableIndex.get_next_id, hsome]
        have hrest := ih tx (n + 1) hkeys hnext1 y.1 y.2 hcs
        rw [← hids, hrest, hco.1, hnext]
        rw [List.length_cons, List.range_succ_eq_map, List.map_cons, List.map_map]
        show n :: _ = _ :: _
        congr 1
        · simp
        · apply List.map_congr_left
          intro j _
          simp only [Function.comp]
          push_cast
          ring

theorem treeInsert_keys_perm {t : List (Int × Nat)} {i : Int} (p : Nat)
    (h : t.lookup i = none) :
    ((treeInsert t i p).map Prod.fst).Perm (i :: t.map Prod.fst) := by
  induction t with
  | nil => exact List.Perm.refl _
  | cons e t ih =>
    cases e with
    | mk k q =>
      by_cases h1 : i < k
      · rw [treeInsert, if_pos h1]
        exact List.Perm.refl _
      · by_cases h2 : i = k
        · subst h2
          rw [lookup_cons_self] at h
          cases h
        · rw [treeInsert, if_neg h1, if_neg h2]
          have ht : t.lookup i = none := by
            rw [lookup_cons_ne _ _ h2] at h
            exact h
          exact List.Perm.trans ((ih ht).cons k) (List.Perm.swap i k (t.map Prod.fst))

theorem foldInsert_keys (ps : List (Int × Nat)) :
    ∀ t, (ps.map Prod.fst).Nodup → (∀ z ∈ ps.map Prod.fst, t.lookup z = none) →
      ((foldInsert t ps).map Prod.fst).Perm (t.map Prod.fst ++ ps.map Prod.fst) := by
  induction ps with
  | nil =>
    intro t _ _
    simp [foldInsert]
  | cons e ps ih =>
    intro t hnodup hnone
    cases e with
    | mk i p =>
      simp only [List.map_cons, List.nodup_cons] at hnodup
      have hti : t.lookup i = none := hnone i (by simp)
      have hstep := ih (treeInsert t i p) hnodup.2 (by
        intro z hz
        rw [treeInsert_lookup]
        have hzi : ¬(z = i) := fun hx => hnodup.1 (hx ▸ hz)
        rw [if_neg hzi]
        exact hnone z (by simp [hz]))
      rw [foldInsert]
      exact hstep.trans
        (((treeInsert_keys_perm p hti).append_right (ps.map Prod.fst)).trans
          List.perm_middle.symm)

/-! ## Claim C1: `Table.get` -/

/-- C1: what `Table.get` does on a well-formed table.  An id absent from
the index raises `ValueError`; an id whose stored offset is a record
boundary returns the record found there as is.  `get` never compares the
returned row's id to the requested one — the `IndexCorrupt` validation the
specification describes does not exist in the code (see the
counterexample). -/
theorem C1_get_spec (schema : Schema) (recs : List (List (List Nat)))
    (idx : TableIndex) (hwf : wfRecords schema recs = true) (id_ : Int) :
    (idx.get id_ = none →
      Table.get schema ⟨recsBytes recs, idx⟩ id_ = .error .valueError) ∧
    (∀ pre r post, recs = pre ++ r :: post →
      idx.get id_ = some (recsBytes pre).length →
      Table.get schema ⟨recsBytes recs, idx⟩ id_ = .ok (recRow schema r)) := by
  constructor
  · intro h
    simp only [Table.get, h]
  · intro pre r post hsplit hpos
    have hwfr : wfRecord schema r = true := by
      rw [wfRecords, List.all_eq_true] at hwf
      exact hwf r (by rw [hsplit]; exact List.mem_append_right _ (List.mem_cons_self _ _))
    subst hsplit
    rw [recsBytes_append, recsBytes_cons]
    simp only [Table.get, hpos,
      read_row_at hwfr (recsBytes pre) (recsBytes post) (boundary_recs pre)]

/-- C1 counterexample to the specified behaviour: a well-formed two-record
file whose index sends id 5 to the second record's offset; `get 5` returns
that record's row even though its id is 1 — no id validation and no
`IndexCorrupt` failure happen. -/
theorem C1_get_cex :
    wfRecords [⟨"id", DTy.int, false⟩] [[[0, 0, 0, 0]], [[0, 0, 0, 1]]] = true ∧
    (⟨[(5, 12)], []⟩ : TableIndex).get 5 = some 12 ∧
    Table.get [⟨"id", DTy.int, false⟩]
        ⟨recsBytes [[[0, 0, 0, 0]], [[0, 0, 0, 1]]], ⟨[(5, 12)], []⟩⟩ 5 =
      .ok [("id", Value.vint 1)] ∧
    ¬(rowIdD [("id", Value.vint 1)] = 5) := by decide

/-- C1 witness: both branches of `C1_get_spec` at a concrete table. -/
theorem C1_get_spec_witness :
    Table.get [⟨"id", DTy.int, false⟩] ⟨recsBytes [[[0, 0, 0, 7]]], ⟨[], []⟩⟩ 5 =
      .error .valueError ∧
    Table.get [⟨"id", DTy.int, false⟩] ⟨recsBytes [[[0, 0, 0, 7]]], ⟨[(7, 0)], []⟩⟩ 7 =
      .ok (recRow [⟨"id", DTy.int, false⟩] [[0, 0, 0, 7]]) := by
  constructor
  · exact (C1_get_spec [⟨"id", DTy.int, false⟩] [[[0, 0, 0, 7]]] ⟨[], []⟩
      (by decide) 5).1 (by decide)
  · exact (C1_get_spec [⟨"id", DTy.int, false⟩] [[[0, 0, 0, 7]]] ⟨[(7, 0)], []⟩
      (by decide) 7).2 [] [[0, 0, 0, 7]] [] rfl (by decide)

/-! ## Claim C2: post-delete integrity -/

/-- C2: deleting a present id erases exactly its record and rebuilds the
index from the survivors: afterwards the id no longer exists in the index,
and every surviving id's indexed offset reads back a row with that id;
deleting an absent id returns 0 and leaves file and index unchanged. -/
theorem C2_delete_integrity {schema : Schema} {recs : List (List (List Nat))}
    (idx : TableIndex)
    (hwf : wfRecords schema recs = true)
    (hlen : (recsBytes recs).length < 2 ^ 64)
    (hnodup : (recs.map (recId schema)).Nodup)
    (id_ : Int) :
    (id_ ∉ recs.map (recId schema) →
      Table.delete schema ⟨recsBytes recs, idx⟩ id_ = .ok (⟨recsBytes recs, idx⟩, 0)) ∧
    (id_ ∈ recs.map (recId schema) →
      ∃ t1, Table.delete schema ⟨recsBytes recs, idx⟩ id_ = .ok (t1, 1) ∧
        t1.index.exists_ id_ = false ∧
        ∀ j, j ∈ recs.map (recId schema) → ¬(j = id_) →
          ∃ p row e, t1.index.get j = some p ∧
            read_row schema t1.file p = .ok (some (row, p, e)) ∧
            rowIdD row = j) := by
  obtain ⟨habs, hpres⟩ := delete_spec idx hwf hlen id_
  refine ⟨habs, ?_⟩
  intro hmem
  obtain ⟨pre, r, post, idx1, hsplit, hid, hdel, htree, hok⟩ := hpres hmem
  have hsub : (pre ++ post).Sublist recs := by
    rw [hsplit]
    exact List.Sublist.append_left (List.sublist_cons_self r post) pre
  have hwf2 : wfRecords schema (pre ++ post) = true := wfRecords_sublist hsub hwf
  have hnodup2 : ((pre ++ post).map (recId schema)).Nodup :=
    List.Nodup.sublist (List.Sublist.map _ hsub) hnodup
  have hkeysEq := @triples_keys schema (pre ++ post) 0
  have hid_not : id_ ∉ (pre ++ post).map (recId schema) := by
    intro hin
    rw [hsplit, List.map_append, List.map_cons, hid, List.nodup_append] at hnodup
    rw [List.map_append] at hin
    rcases List.mem_append.mp hin with hin | hin
    · exact hnodup.2.2 hin (List.mem_cons_self _ _)
    · exact (List.nodup_cons.mp hnodup.2.1).1 hin
  refine ⟨⟨recsBytes (pre ++ post), idx1⟩, hdel, ?_, ?_⟩
  · have hnone : ((triplesFrom schema 0 (pre ++ post)).map
        fun x => (rowIdD x.1, x.2.1)).lookup id_ = none :=
      lookup_none_of_not_mem (by rw [hkeysEq]; exact hid_not)
    show (idx1.tree.lookup id_).isSome = false
    rw [htree, foldInsert_lookup_absent _ [] id_ hnone]
    rfl
  · intro j hj hne
    have hjS : j ∈ (pre ++ post).map (recId schema) := by
      rw [hsplit, List.map_append, List.map_cons, hid] at hj
      rw [List.map_append]
      rcases List.mem_append.mp hj with h | h
      · exact List.mem_append.mpr (Or.inl h)
      · rcases List.mem_cons.mp h with h | h
        · exact absurd h hne
        · exact List.mem_append.mpr (Or.inr h)
    obtain ⟨pre2, r2, post2, hsplit2, hid2, hlook⟩ := triples_lookup (pre ++ post) 0 j hjS
    have hget : idx1.get j = some ((recsBytes pre2).length) := by
      show idx1.tree.lookup j = _
      rw [htree,
        foldInsert_lookup_present _ [] j _ (by rw [hkeysEq]; exact hnodup2) hlook,
        Nat.zero_add]
    have hwfr2 : wfRecord schema r2 = true := by
      rw [wfRecords, List.all_eq_true] at hwf2
      exact hwf2 r2 (by
        rw [hsplit2]
        exact List.mem_append_right _ (List.mem_cons_self _ _))
    refine ⟨(recsBytes pre2).length, recRow schema r2,
      (recsBytes pre2).length + (recordBytes r2).length, hget, ?_, hid2⟩
    show read_row schema (recsBytes (pre ++ post)) (recsBytes pre2).length = _
    rw [hsplit2, recsBytes_append, recsBytes_cons]
    exact read_row_at hwfr2 (recsBytes pre2) (recsBytes post2) (boundary_recs pre2)

/-- C2 witness: both branches of `C2_delete_integrity` at a concrete
two-record table with ids 4 and 5. -/
theorem C2_delete_integrity_witness :
    Table.delete [⟨"id", DTy.int, false⟩]
        ⟨recsBytes [[[0, 0, 0, 4]], [[0, 0, 0, 5]]], ⟨[], []⟩⟩ 9 =
      .ok (⟨recsBytes [[[0, 0, 0, 4]], [[0, 0, 0, 5]]], ⟨[], []⟩⟩, 0) ∧
    ∃ t1, Table.delete [⟨"id", DTy.int, false⟩]
        ⟨recsBytes [[[0, 0, 0, 4]], [[0, 0, 0, 5]]], ⟨[], []⟩⟩ 5 = .ok (t1, 1) ∧
      t1.index.exists_ 5 = false := by
  constructor
  · exact (@C2_delete_integrity [⟨"id", DTy.int, false⟩]
      [[[0, 0, 0, 4]], [[0, 0, 0, 5]]] ⟨[], []⟩
      (by decide) (by decide) (by decide) 9).1 (by decide)
  · obtain ⟨t1, h1, h2, _⟩ := (@C2_delete_integrity [⟨"id", DTy.int, false⟩]
      [[[0, 0, 0, 4]], [[0, 0, 0, 5]]] ⟨[], []⟩
      (by decide) (by decide) (by decide) 5).2 (by decide)
    exact ⟨t1, h1, h2⟩

/-! ## Claim C3: the record round trip -/

/-- C3: the write/read record round trip.  The specification's side
condition — the encoded field bytes contain no delimiter substring
(`noDelimSub`) — is not sufficient, because an 8-byte window straddling a
field's suffix and the delimiter written after it can spell a delimiter
(see the counterexample).  Under the stronger framing condition
`cleanFields` (no 8-byte window of field-plus-delimiter ending before the
delimiter's end matches either delimiter), writing `R_1, …, R_n`
sequentially on an empty file and scanning from 0 yields exactly those
rows, and each single record written on an empty file reads back as
`(R, 0, len)` with `len` the bytes written. -/
theorem C3_record_roundtrip {schema : Schema} {rows : List Row}
    (hany : schema.any (fun f => f.name = "id" && f.datatype = .int) = true)
    (hnames : (schema.map Field.name).Nodup)
    (hfit : ∀ row ∈ rows, rowFitsSchema schema row = true)
    (hrep : ∀ row ∈ rows, rowRepresentable row = true)
    (hclean : ∀ row ∈ rows, cleanFields (encRow row) = true) :
    writeRows [] rows = .ok (recsBytes (rows.map encRow)) ∧
    readRowsLoop schema (recsBytes (rows.map encRow)) 0
        ((recsBytes (rows.map encRow)).length + 1) =
      .ok (triplesFrom schema 0 (rows.map encRow)) ∧
    (triplesFrom schema 0 (rows.map encRow)).map (fun x => x.1) = rows ∧
    ∀ row ∈ rows,
      write_row [] row =
        .ok (recordBytes (encRow row), 0, (recordBytes (encRow row)).length) ∧
      read_row schema (recordBytes (encRow row)) 0 =
        .ok (some (row, 0, (recordBytes (encRow row)).length)) := by
  have hall : rows.all rowRepresentable = true := by
    rw [List.all_eq_true]; exact hrep
  have hwfs : wfRecords schema (rows.map encRow) = true := by
    rw [wfRecords, List.all_eq_true]
    intro r hr
    rw [List.mem_map] at hr
    obtain ⟨row, hrow, rfl⟩ := hr
    exact wfRecord_encRow hany hnames (hfit row hrow) (hrep row hrow) (hclean row hrow)
  refine ⟨?_, ?_, ?_, ?_⟩
  · simpa using writeRows_ok hall
  · have := readRowsLoop_recs (rows.map encRow) hwfs [] (Or.inl rfl)
      ((recsBytes (rows.map encRow)).length + 1)
      (Nat.lt_succ_of_le (rs_length_le _))
    simpa using this
  · rw [triples_rows, List.map_map]
    have hcg : ∀ row ∈ rows, (recRow schema ∘ encRow) row = id row := by
      intro row hrow
      simp only [Function.comp, id]
      exact recRow_encRow (hfit row hrow) (hrep row hrow)
    rw [List.map_congr_left hcg, List.map_id]
  · intro row hrow
    constructor
    · simpa using @write_row_ok [] row (hrep row hrow)
    · have hwfr : wfRecord schema (encRow row) = true :=
        wfRecord_encRow hany hnames (hfit row hrow) (hrep row hrow) (hclean row hrow)
      have := read_row_at hwfr [] [] (Or.inl rfl)
      rw [recRow_encRow (hfit row hrow) (hrep row hrow)] at this
      simpa using this

/-- C3 counterexample to the specified side condition: neither encoded
field of the row `{id: -16711936, x: 0}` contains a delimiter substring,
`write_row` succeeds, yet reading the written record back fails — the
last four bytes of the first field followed by the first four of the
`FIELDS_DELIMITER` after it form a spurious delimiter window, so the scan
splits the record wrongly. -/
theorem C3_record_cex :
    noDelimSub (encValue (Value.vint (-16711936))) = true ∧
    noDelimSub (encValue (Value.vint 0)) = true ∧
    write_row [] [("id", Value.vint (-16711936)), ("x", Value.vint 0)] =
      .ok ([255, 0, 255, 0, 255, 0, 255, 0, 255, 0, 255, 0, 0, 0, 0, 0,
            0, 127, 0, 255, 0, 127, 0, 255], 0, 24) ∧
    read_row [⟨"id", DTy.int, false⟩, ⟨"x", DTy.int, false⟩]
        [255, 0, 255, 0, 255, 0, 255, 0, 255, 0, 255, 0, 0, 0, 0, 0,
         0, 127, 0, 255, 0, 127, 0, 255] 0 =
      .error .structError := by decide

/-- C3 witness: the round trip of `C3_record_roundtrip` on two concrete
rows over the schema `(id: Int, x: Bool)`. -/
theorem C3_record_roundtrip_witness :
    writeRows [] [[("id", Value.vint 0), ("x", Value.vbool true)],
        [("id", Value.vint 1), ("x", Value.vbool false)]] =
      .ok (recsBytes ([[("id", Value.vint 0), ("x", Value.vbool true)],
        [("id", Value.vint 1), ("x", Value.vbool false)]].map encRow)) ∧
    (triplesFrom [⟨"id", DTy.int, false⟩, ⟨"x", DTy.bool, false⟩] 0
        ([[("id", Value.vint 0), ("x", Value.vbool true)],
          [("id", Value.vint 1), ("x", Value.vbool false)]].map encRow)).map
        (fun x => x.1) =
      [[("id", Value.vint 0), ("x", Value.vbool true)],
        [("id", Value.vint 1), ("x", Value.vbool false)]] := by
  have h := @C3_record_roundtrip
    [⟨"id", DTy.int, false⟩, ⟨"x", DTy.bool, false⟩]
    [[("id", Value.vint 0), ("x", Value.vbool true)],
      [("id", Value.vint 1), ("x", Value.vbool false)]]
    (by decide) (by decide) (by decide) (by decide) (by decide)
  exact ⟨h.1, h.2.2.1⟩

/-! ## Claim C4: `Table.select` -/

/-- C4: `select` returns exactly the rows every filter pair matches
(equality at the filter's field), sorted in strictly ascending id order,
whatever the physical order of the records in the file (the file holds
records with pairwise distinct ids, and every filter key is a schema
field). -/
theorem C4_select_filter_sorted {schema : Schema} {recs : List (List (List Nat))}
    (idx : TableIndex)
    (hwf : wfRecords schema recs = true)
    (hnodup : (recs.map (recId schema)).Nodup)
    (filt : List (String × Value))
    (hkeys : ∀ kv ∈ filt, kv.1 ∈ schema.map Field.name) :
    ∃ l, Table.select schema ⟨recsBytes recs, idx⟩ filt = .ok l ∧
      l.Perm ((recs.map (recRow schema)).filter (rowMatchesB filt)) ∧
      l.Pairwise (fun a b => rowIdD a < rowIdD b) := by
  have hscan : readRowsLoop schema (recsBytes recs) 0 ((recsBytes recs).length + 1) =
      .ok (triplesFrom schema 0 recs) := by
    have := readRowsLoop_recs recs hwf [] (Or.inl rfl) ((recsBytes recs).length + 1)
      (Nat.lt_succ_of_le (rs_length_le recs))
    simpa using this
  have hlookups : ∀ x ∈ triplesFrom schema 0 recs, ∀ kv ∈ filt,
      (x.1.lookup kv.1).isSome = true := by
    intro x hx kv hkv
    have hx1 : x.1 ∈ recs.map (recRow schema) := by
      rw [← triples_rows recs 0]
      exact List.mem_map.mpr ⟨x, hx, rfl⟩
    rw [List.mem_map] at hx1
    obtain ⟨r, hr, hxr⟩ := hx1
    have hwfr : wfRecord schema r = true := by
      rw [wfRecords, List.all_eq_true] at hwf
      exact hwf r hr
    unfold wfRecord at hwfr
    simp only [Bool.and_eq_true, decide_eq_true_eq] at hwfr
    obtain ⟨⟨⟨⟨_, hlen⟩, hdec⟩, _⟩, _⟩ := hwfr
    rcases hrow : Row.from_bytes schema r with e | row
    · rw [hrow] at hdec; simp [isOkE] at hdec
    · have hnms := from_bytes_names hrow hlen
      have hrec : recRow schema r = row := by rw [recRow, hrow]
      rw [← hxr, hrec]
      apply lookup_isSome_of_mem
      rw [hnms]
      exact hkeys kv hkv
  have hfilter := filterRows_ok hlookups
  rw [triples_rows] at hfilter
  refine ⟨((recs.map (recRow schema)).filter (rowMatchesB filt)).mergeSort
      (fun a b => decide (rowIdD a ≤ rowIdD b)), ?_, ?_, ?_⟩
  · show (readRowsLoop schema (recsBytes recs) 0 ((recsBytes recs).length + 1)).bind _ = _
    rw [hscan]
    simp only [Except.bind]
    rw [hfilter]
    simp only [Except.map]
  · exact List.mergeSort_perm _ _
  · have hsorted := @List.sorted_mergeSort _
      (fun a b => decide (rowIdD a ≤ rowIdD b))
      (by intro a b c hab hbc; simp only [decide_eq_true_eq] at *; omega)
      (by intro a b; simp only [Bool.or_eq_true, decide_eq_true_eq]; omega)
      ((recs.map (recRow schema)).filter (rowMatchesB filt))
    have hle : (((recs.map (recRow schema)).filter (rowMatchesB filt)).mergeSort
        (fun a b => decide (rowIdD a ≤ rowIdD b))).Pairwise
        (fun a b => rowIdD a ≤ rowIdD b) := by
      refine hsorted.imp ?_
      intro a b h
      simpa using h
    have hperm := List.mergeSort_perm
      ((recs.map (recRow schema)).filter (rowMatchesB filt))
      (fun a b => decide (rowIdD a ≤ rowIdD b))
    have hndl : ((((recs.map (recRow schema)).filter (rowMatchesB filt)).mergeSort
        (fun a b => decide (rowIdD a ≤ rowIdD b))).map rowIdD).Nodup := by
      have hnodupS : ((((recs.map (recRow schema)).filter
          (rowMatchesB filt))).map rowIdD).Nodup := by
        apply List.Nodup.sublist (List.Sublist.map rowIdD (List.filter_sublist _))
        have hmm : (recs.map (recRow schema)).map rowIdD = recs.map (recId schema) := by
          rw [List.map_map]; rfl
        rw [hmm]
        exact hnodup
      exact ((hperm.map rowIdD).nodup_iff).mpr hnodupS
    have hne : (((recs.map (recRow schema)).filter (rowMatchesB filt)).mergeSort
        (fun a b => decide (rowIdD a ≤ rowIdD b))).Pairwise
        (fun a b => ¬(rowIdD a = rowIdD b)) := by
      have hpw : ((((recs.map (recRow schema)).filter (rowMatchesB filt)).mergeSort
          (fun a b => decide (rowIdD a ≤ rowIdD b))).map rowIdD).Pairwise
          (fun a b => ¬(a = b)) := hndl
      rw [List.pairwise_map] at hpw
      exact hpw
    exact (hle.and hne).imp (fun h => lt_of_le_of_ne h.1 h.2)

/-- C4 witness: `select` with the empty filter on a file whose records are
physically stored in descending id order returns both rows and sorts them
ascending. -/
theorem C4_select_filter_sorted_witness :
    ∃ l, Table.select [⟨"id", DTy.int, false⟩]
        ⟨recsBytes [[[0, 0, 0, 1]], [[0, 0, 0, 0]]], ⟨[], []⟩⟩ [] = .ok l ∧
      l.Perm (([[[0, 0, 0, 1]], [[0, 0, 0, 0]]].map
        (recRow [⟨"id", DTy.int, false⟩])).filter (rowMatchesB [])) ∧
      l.Pairwise (fun a b => rowIdD a < rowIdD b) := by
  obtain ⟨l, h1, h2, h3⟩ := @C4_select_filter_sorted
    [⟨"id", DTy.int, false⟩] [[[0, 0, 0, 1]], [[0, 0, 0, 0]]]
    ⟨[], []⟩ (by decide) (by decide) [] (by intro kv hkv; cases hkv)
  exact ⟨l, h1, h2, h3⟩

/-! ## Claim C5: id assignment -/

/-- C5: `create` assigns `index.get_next_id()` as the row's id, ignoring
any user-supplied id (the row's `id` entry is overwritten with the assigned
id); `get_next_id` is 0 on an empty index and `max(keys) + 1` otherwise;
hence on a fresh table with an empty index successive `create` calls
assign `0, 1, 2, …`. -/
theorem C5_create_ids {schema : Schema} (t : Table) (row : Row) :
    (∀ t1 row1 k, Table.create schema t row = .ok (t1, row1, k) →
      k = t.index.get_next_id ∧ row1 = dictSet row "id" (.vint k)) ∧
    (∀ s : TableIndex, s.tree = [] → s.get_next_id = 0) ∧
    (∀ (s : TableIndex) (m : Int), (s.tree.map Prod.fst).max? = some m →
      s.get_next_id = m + 1) ∧
    (∀ (t0 : Table) (rows : List Row) (t1 : Table) (ids : List Int),
      t0.index.tree = [] → createSeq schema t0 rows = .ok (t1, ids) →
      ids = (List.range rows.length).map (fun (j : Nat) => (j : Int))) := by
  refine ⟨?_, ?_, ?_, ?_⟩
  · intro t1 row1 k h
    obtain ⟨hk, hrow, _⟩ := create_ok h
    exact ⟨hk, by rw [hrow, hk]⟩
  · intro s h
    simp [TableIndex.get_next_id, h]
  · intro s m h
    simp [TableIndex.get_next_id, h]
  · intro t0 rows t1 ids h0 hcs
    have hids := createSeq_ids rows t0 0
      (by intro z hz; rw [h0] at hz; simp at hz)
      (by simp [TableIndex.get_next_id, h0])
      t1 ids hcs
    rw [hids]
    apply List.map_congr_left
    intro j _
    omega

/-- C5 witness: on the empty table the first `create` assigns id 0 (even
though the supplied row carried id 7); `get_next_id` is 0 on the empty
index, 6 on an index with keys 2 and 5; three successive creates on the
fresh table assign 0, 1, 2. -/
theorem C5_create_ids_witness :
    ((0 : Int) = (⟨[], ⟨[], []⟩⟩ : Table).index.get_next_id ∧
      [("id", Value.vint 0)] = dictSet [("id", Value.vint 7)] "id" (Value.vint 0)) ∧
    (⟨[], []⟩ : TableIndex).get_next_id = 0 ∧
    (⟨[(2, 0), (5, 12)], []⟩ : TableIndex).get_next_id = 5 + 1 ∧
    [0, 1, 2] = (List.range 3).map (fun (j : Nat) => (j : Int)) := by
  have h := @C5_create_ids [⟨"id", DTy.int, false⟩] ⟨[], ⟨[], []⟩⟩
    [("id", Value.vint 7)]
  refine ⟨?_, h.2.1 ⟨[], []⟩ rfl, h.2.2.1 ⟨[(2, 0), (5, 12)], []⟩ 5 (by decide), ?_⟩
  · exact h.1 ⟨[0, 0, 0, 0, 0, 127, 0, 255, 0, 127, 0, 255],
      ⟨[(0, 0)], [0, 0, 0, 0, 0, 0, 0, 0, 0, 0, 0, 0]⟩⟩
      [("id", Value.vint 0)] 0 (by decide)
  · exact h.2.2.2 ⟨[], ⟨[], []⟩⟩
      [[("id", Value.vint 7)], [("id", Value.vint 7)], [("id", Value.vint 7)]]
      ⟨[0, 0, 0, 0, 0, 127, 0, 255, 0, 127, 0, 255,
        0, 0, 0, 1, 0, 127, 0, 255, 0, 127, 0, 255,
        0, 0, 0, 2, 0, 127, 0, 255, 0, 127, 0, 255],
        ⟨[(0, 0), (1, 12), (2, 24)],
          [0, 0, 0, 0, 0, 0, 0, 0, 0, 0, 0, 0, 1, 0, 0, 0, 12, 0, 0, 0, 0, 0, 0, 0,
           2, 0, 0, 0, 24, 0, 0, 0, 0, 0, 0, 0]⟩⟩
      [0, 1, 2] rfl (by decide)

/-! ## Claim C9: the frame effect of `create` on the caller's row -/

/-- The overwrite branch of `dictSet` stores the new value under the key. -/
theorem dictSet_lookup_self :
    ∀ (row : Row) (k : String) (v : Value), row.any (fun kv => kv.1 = k) = true →
      (row.map (fun kv => if kv.1 = k then (kv.1, v) else kv)).lookup k = some v := by
  intro row k v h
  induction row with
  | nil => simp at h
  | cons kv row ih =>
    simp only [List.any_cons, Bool.or_eq_true, decide_eq_true_eq] at h
    by_cases hk : kv.1 = k
    · rw [List.map_cons, if_pos hk, ← hk]
      exact lookup_cons_self_g _ _
    · rw [List.map_cons, if_neg hk,
        lookup_cons_ne_g _ _ (fun hx : k = kv.1 => hk hx.symm)]
      apply ih
      rcases h with h | h
      · exact absurd h hk
      · exact h

/-- The overwrite branch of `dictSet` leaves every other key's value
unchanged. -/
theorem dictSet_lookup_other :
    ∀ (row : Row) (k key : String) (v : Value), ¬(key = k) →
      (row.map (fun kv => if kv.1 = k then (kv.1, v) else kv)).lookup key =
        row.lookup key := by
  intro row k key v hne
  induction row with
  | nil => rfl
  | cons kv row ih =>
    cases kv with
    | mk k1 v1 =>
      by_cases hk : k1 = k
      · simp only [List.map_cons, if_pos hk]
        by_cases hkey : key = k1
        · exact absurd (hkey.trans hk) hne
        · rw [lookup_cons_ne_g _ _ hkey, lookup_cons_ne_g _ _ hkey, ih]
      · simp only [List.map_cons, if_neg hk]
        by_cases hkey : key = k1
        · subst hkey
          rw [lookup_cons_self_g, lookup_cons_self_g]
        · rw [lookup_cons_ne_g _ _ hkey, lookup_cons_ne_g _ _ hkey, ih]

/-- The overwrite branch of `dictSet` preserves the keys and their order. -/
theorem dictSet_names (row : Row) (k : String) (v : Value) :
    (row.map (fun kv => if kv.1 = k then (kv.1, v) else kv)).map Prod.fst =
      row.map Prod.fst := by
  rw [List.map_map]
  apply List.map_congr_left
  intro kv _
  by_cases hk : kv.1 = k <;> simp [Function.comp, hk]

/-- C9: `create` leaves the caller's row with its `id` entry overwritten by
the assigned id and everything else intact: after `create` returns `k` the
row's `id` value is `k`, every other key's value is unchanged, and the
keys and their order are preserved (for rows that carry an `id` entry, as
every row built against a valid schema does). -/
theorem C9_create_frame {schema : Schema} {t : Table} {row : Row} {t1 : Table}
    {row1 : Row} {k : Int}
    (h : Table.create schema t row = .ok (t1, row1, k))
    (hhas : row.any (fun kv => kv.1 = "id") = true) :
    row1.lookup "id" = some (Value.vint k) ∧
    (∀ key, ¬(key = "id") → row1.lookup key = row.lookup key) ∧
    row1.map Prod.fst = row.map Prod.fst := by
  obtain ⟨hk, hrow, _⟩ := create_ok h
  rw [hrow, ← hk, dictSet, if_pos hhas]
  exact ⟨dictSet_lookup_self row "id" (.vint k) hhas,
    fun key hkey => dictSet_lookup_other row "id" key (.vint k) hkey,
    dictSet_names row "id" (.vint k)⟩

/-- C9 witness: creating `{id: 9, x: true}` on the empty table overwrites
the row's id with the assigned id 0 and leaves the `x` value and the key
order unchanged. -/
theorem C9_create_frame_witness :
    ([("id", Value.vint 0), ("x", Value.vbool true)] : Row).lookup "id" =
      some (Value.vint 0) ∧
    ([("id", Value.vint 0), ("x", Value.vbool true)] : Row).lookup "x" =
      ([("id", Value.vint 9), ("x", Value.vbool true)] : Row).lookup "x" ∧
    ([("id", Value.vint 0), ("x", Value.vbool true)] : Row).map Prod.fst =
      ([("id", Value.vint 9), ("x", Value.vbool true)] : Row).map Prod.fst := by
  have h := C9_create_frame
    (by decide :
      Table.create [⟨"id", DTy.int, false⟩, ⟨"x", DTy.bool, false⟩] ⟨[], ⟨[], []⟩⟩
        [("id", Value.vint 9), ("x", Value.vbool true)] =
      .ok (⟨[0, 0, 0, 0, 255, 0, 255, 0, 255, 0, 255, 0, 1,
          0, 127, 0, 255, 0, 127, 0, 255],
        ⟨[(0, 0)], [0, 0, 0, 0, 0, 0, 0, 0, 0, 0, 0, 0]⟩⟩,
        [("id", Value.vint 0), ("x", Value.vbool true)], 0))
    (by decide)
  exact ⟨h.1, h.2.1 "x" (by decide), h.2.2⟩

/-! ## Claim C10: id reuse after deleting the maximum -/

/-- C10: what deleting the row with the maximal id does to the next
assigned id.  `get_next_id` depends only on the currently live keys, so
after `delete(m)` the next `create` assigns `max(surviving ids) + 1` — that
is `m` again exactly when `m - 1` is still present, which the claim's
un-hypothesised "assigns id m again" requires (the counterexample shows a
maximal deletion after which the next id is not `m`).  Under the
additional hypothesis that `m - 1` is among the stored ids, `delete(m)`
succeeds and the next `create` assigns `m`. -/
theorem C10_delete_reuse {schema : Schema} {recs : List (List (List Nat))}
    (idx : TableIndex)
    (hwf : wfRecords schema recs = true)
    (hlen : (recsBytes recs).length < 2 ^ 64)
    (hnodup : (recs.map (recId schema)).Nodup)
    (m : Int)
    (hm : m ∈ recs.map (recId schema))
    (hmax : ∀ j ∈ recs.map (recId schema), j ≤ m)
    (hprev : m - 1 ∈ recs.map (recId schema)) :
    ∃ t1, Table.delete schema ⟨recsBytes recs, idx⟩ m = .ok (t1, 1) ∧
      t1.index.get_next_id = m ∧
      ∀ row t2 row2 k, Table.create schema t1 row = .ok (t2, row2, k) → k = m := by
  obtain ⟨_, hpres⟩ := delete_spec idx hwf hlen m
  obtain ⟨pre, r, post, idx1, hsplit, hid, hdel, htree, hok⟩ := hpres hm
  have hsub : (pre ++ post).Sublist recs := by
    rw [hsplit]
    exact List.Sublist.append_left (List.sublist_cons_self r post) pre
  have hnodup2 : ((pre ++ post).map (recId schema)).Nodup :=
    List.Nodup.sublist (List.Sublist.map _ hsub) hnodup
  have hm_not : m ∉ (pre ++ post).map (recId schema) := by
    intro hin
    rw [hsplit, List.map_append, List.map_cons, hid, List.nodup_append] at hnodup
    rw [List.map_append] at hin
    rcases List.mem_append.mp hin with hin | hin
    · exact hnodup.2.2 hin (List.mem_cons_self _ _)
    · exact (List.nodup_cons.mp hnodup.2.1).1 hin
  have hkeysEq := @triples_keys schema (pre ++ post) 0
  have hperm : (idx1.tree.map Prod.fst).Perm ((pre ++ post).map (recId schema)) := by
    rw [htree]
    have hfk := foldInsert_keys
      ((triplesFrom schema 0 (pre ++ post)).map fun x => (rowIdD x.1, x.2.1)) []
      (by rw [hkeysEq]; exact hnodup2) (fun z _ => rfl)
    rw [hkeysEq] at hfk
    simpa using hfk
  have hprev2 : m - 1 ∈ (pre ++ post).map (recId schema) := by
    rw [hsplit, List.map_append, List.map_cons, hid] at hprev
    rw [List.map_append]
    rcases List.mem_append.mp hprev with h | h
    · exact List.mem_append.mpr (Or.inl h)
    · rcases List.mem_cons.mp h with h | h
      · exact absurd h (by omega)
      · exact List.mem_append.mpr (Or.inr h)
  have hmax2 : ∀ j ∈ (pre ++ post).map (recId schema), j ≤ m - 1 := by
    intro j hj
    have hjm : j ≤ m := hmax j (by
      rw [hsplit, List.map_append, List.map_cons]
      rw [List.map_append] at hj
      rcases List.mem_append.mp hj with h | h
      · exact List.mem_append.mpr (Or.inl h)
      · exact List.mem_append.mpr (Or.inr (List.mem_cons_of_mem _ h)))
    have hjne : ¬(j = m) := fun hx => hm_not (hx ▸ hj)
    omega
  have hmaxsome : (idx1.tree.map Prod.fst).max? = some (m - 1) := by
    apply max?_eq_of
    · exact hperm.mem_iff.mpr hprev2
    · intro z hz
      exact hmax2 z (hperm.mem_iff.mp hz)
  have hnext : idx1.get_next_id = m := by
    simp [TableIndex.get_next_id, hmaxsome]
  refine ⟨⟨recsBytes (pre ++ post), idx1⟩, hdel, hnext, ?_⟩
  intro row t2 row2 k hc
  have hkk := (create_ok hc).1
  rw [hkk]
  exact hnext

/-- C10 counterexample to the unconditional claim: a table with ids 0 and
5 (maximum 5); deleting 5 succeeds, but the next id is 1, not 5, and the
next `create` indeed assigns 1 — ids are not reused as the claim states
unless `m - 1` happens to survive. -/
theorem C10_delete_reuse_cex :
    Table.delete [⟨"id", DTy.int, false⟩]
        ⟨recsBytes [[[0, 0, 0, 0]], [[0, 0, 0, 5]]], ⟨[(0, 0), (5, 12)], []⟩⟩ 5 =
      .ok (⟨[0, 0, 0, 0, 0, 127, 0, 255, 0, 127, 0, 255],
        ⟨[(0, 0)], [0, 0, 0, 0, 0, 0, 0, 0, 0, 0, 0, 0]⟩⟩, 1) ∧
    (⟨[(0, 0)], [0, 0, 0, 0, 0, 0, 0, 0, 0, 0, 0, 0]⟩ : TableIndex).get_next_id = 1 ∧
    Table.create [⟨"id", DTy.int, false⟩]
        ⟨[0, 0, 0, 0, 0, 127, 0, 255, 0, 127, 0, 255],
          ⟨[(0, 0)], [0, 0, 0, 0, 0, 0, 0, 0, 0, 0, 0, 0]⟩⟩ [("id", Value.vint 9)] =
      .ok (⟨[0, 0, 0, 0, 0, 127, 0, 255, 0, 127, 0, 255,
          0, 0, 0, 1, 0, 127, 0, 255, 0, 127, 0, 255],
        ⟨[(0, 0), (1, 12)],
          [0, 0, 0, 0, 0, 0, 0, 0, 0, 0, 0, 0, 1, 0, 0, 0,
           12, 0, 0, 0, 0, 0, 0, 0]⟩⟩, [("id", Value.vint 1)], 1) ∧
    ¬((1 : Int) = 5) := by decide

/-- C10 witness: a table with ids 4 and 5; after deleting the maximum 5,
the next id is 5 again. -/
theorem C10_delete_reuse_witness :
    ∃ t1, Table.delete [⟨"id", DTy.int, false⟩]
        ⟨recsBytes [[[0, 0, 0, 4]], [[0, 0, 0, 5]]], ⟨[], []⟩⟩ 5 = .ok (t1, 1) ∧
      t1.index.get_next_id = 5 := by
  obtain ⟨t1, h1, h2, _⟩ := @C10_delete_reuse [⟨"id", DTy.int, false⟩]
    [[[0, 0, 0, 4]], [[0, 0, 0, 5]]] ⟨[], []⟩
    (by decide) (by decide) (by decide) 5 (by decide) (by decide) (by decide)
  exact ⟨t1, h1, h2⟩

end Versebase
